import Mathlib

/-!
# Verification of the markdown-table engine

A shallow embedding of the table parsing/mutation engine of this
repository.  Strings of the source are modelled as `List Char`; the
JavaScript string operations used by the code (`trim`, `split`, `join`,
`slice(1,-1)`, …) are given as executable Lean functions below, and each
definition mirrors one function of the source
(`src/utils/MarkdownParser.ts`, `src/utils/TableValidator.ts`,
`src/components/TableToolbar.ts`).
-/

/-- Strings are modelled as lists of characters. -/
abbrev Str := List Char

/-- The whitespace test used by the model of JavaScript `trim`
(space, tab, newline, carriage return). -/
def isWsChar (c : Char) : Bool :=
  c == ' ' || c == '\t' || c == '\n' || c == '\r'

/-- Left part of JavaScript `String.prototype.trim`. -/
def trimL (s : Str) : Str := s.dropWhile isWsChar

/-- Right part of JavaScript `String.prototype.trim`. -/
def trimR (s : Str) : Str := (s.reverse.dropWhile isWsChar).reverse

/-- Model of JavaScript `String.prototype.trim`. -/
def trim (s : Str) : Str := trimR (trimL s)

/-- Model of JavaScript `String.prototype.split(sep)` for a one-character
separator: always returns at least one (possibly empty) field. -/
def splitOnChar (sep : Char) : Str → List Str
  | [] => [[]]
  | c :: rest =>
    match splitOnChar sep rest with
    | [] => [[]]
    | f :: fs => if c = sep then [] :: f :: fs else (c :: f) :: fs

/-- Model of JavaScript `Array.prototype.join(sep)`. -/
def joinSep (sep : Str) : List Str → Str
  | [] => []
  | [x] => x
  | x :: y :: rest => x ++ sep ++ joinSep sep (y :: rest)

/-! ## Table model (`MarkdownParser.ts`, interfaces)

The source `TableCell` also has an optional `alignment` field; it is
never written by the parser and never read by the serializer, so the
model keeps only `content`. -/

structure TableCell where
  content : Str
deriving DecidableEq, Repr

structure TableRow where
  cells : List TableCell
deriving DecidableEq, Repr

structure ParsedTable where
  headers : TableRow
  separator : List Str
  rows : List TableRow
  startLine : Nat
  endLine : Nat
deriving DecidableEq, Repr

/-! ## Parser (`MarkdownParser.ts`) -/

/-- `MarkdownParser.isTableLine`: trimmed line starts and ends with `|`. -/
def isTableLine (line : Str) : Bool :=
  let t := trim line
  t.head? == some '|' && t.getLast? == some '|'

/-- Characters allowed by the separator-line regex `^[\|\s\-:]+$`. -/
def isSepChar (c : Char) : Bool :=
  c == '|' || isWsChar c || c == '-' || c == ':'

/-- `MarkdownParser.isSeparatorLine`: trimmed, pipe-bounded, and made
only of pipe/whitespace/hyphen/colon characters. -/
def isSeparatorLine (line : Str) : Bool :=
  let t := trim line
  t.head? == some '|' && t.getLast? == some '|' && !t.isEmpty && t.all isSepChar

/-- JavaScript `s.slice(1, -1)`: remove first and last character. -/
def sliceInner (s : Str) : Str := (s.drop 1).dropLast

/-- `MarkdownParser.parseTableRow`: strip the surrounding pipes, split on
`|`, trim each field into a cell. -/
def parseTableRow (line : Str) : TableRow :=
  { cells := (splitOnChar '|' (sliceInner (trim line))).map (fun c => { content := trim c }) }

/-- `MarkdownParser.parseSeparator`. -/
def parseSeparator (line : Str) : List Str :=
  (splitOnChar '|' (sliceInner (trim line))).map trim

/-- Scanning loop over the lines not yet visited, carrying the index of
the first of them. -/
def findFromGo (cur : List Str) (i : Nat) : Option Nat :=
  match cur with
  | [] => none
  | l :: rest => if isTableLine l then some i else findFromGo rest (i + 1)

/-- The table-start scan of `MarkdownParser.parseTable`: first index
`j ≥ i` whose line is table-shaped. -/
def findFrom (lines : List Str) (i : Nat) : Option Nat :=
  findFromGo (lines.drop i) i

/-- The row-collecting loop over the lines not yet visited, carrying the
index of the first of them. -/
def parseRowsGo (cur : List Str) (i : Nat) : List TableRow × Nat :=
  match cur with
  | [] => ([], i)
  | l :: rest =>
    if isTableLine l then
      let r := parseRowsGo rest (i + 1)
      (parseTableRow l :: r.1, r.2)
    else ([], i)

/-- The row-collecting loop of `MarkdownParser.parseTable`: consume
consecutive table-shaped lines from index `i`, returning the rows and
the index of the first non-consumed line. -/
def parseRows (lines : List Str) (i : Nat) : List TableRow × Nat :=
  parseRowsGo (lines.drop i) i

/-- `MarkdownParser.parseTable`. -/
def parseTable (content : Str) (startLine : Nat) : Option ParsedTable :=
  let lines := splitOnChar '\n' content
  match findFrom lines startLine with
  | none => none
  | some s =>
    let headers := parseTableRow (lines.getD s [])
    if hsep : s + 1 < lines.length then
      if isSeparatorLine lines[s + 1] then
        let pr := parseRows lines (s + 2)
        some { headers := headers
               separator := parseSeparator lines[s + 1]
               rows := pr.1
               startLine := s
               endLine := pr.2 - 1 }
      else none
    else none

/-! ## Serializer (`MarkdownParser.generateTable`, table signature) -/

/-- The cell separator `" | "` used when joining a line. -/
def sepStr : Str := [' ', '|', ' ']

/-- One serialized line: `'| ' + cells.join(' | ') + ' |'`. -/
def mkLine (cells : List Str) : Str :=
  '|' :: ' ' :: (joinSep sepStr cells ++ [' ', '|'])

/-- `MarkdownParser.generateTable(table)`: header line, separator line,
one line per row, joined with newlines. -/
def generateTable (t : ParsedTable) : Str :=
  joinSep ['\n']
    (mkLine (t.headers.cells.map TableCell.content)
      :: mkLine t.separator
      :: t.rows.map (fun r => mkLine (r.cells.map TableCell.content)))

/-! ## Lemmas about the string primitives -/

theorem splitOnChar_ne_nil (sep : Char) (s : Str) : splitOnChar sep s ≠ [] := by
  induction s with
  | nil => simp [splitOnChar]
  | cons c rest ih =>
    simp only [splitOnChar]
    cases h : splitOnChar sep rest with
    | nil => simp
    | cons f fs => by_cases hc : c = sep <;> simp [hc]

theorem splitOnChar_no_sep (sep : Char) (s : Str) (h : sep ∉ s) :
    splitOnChar sep s = [s] := by
  induction s with
  | nil => rfl
  | cons c rest ih =>
    have hc : c ≠ sep := by rintro rfl; exact h (List.mem_cons_self _ _)
    have hrest : sep ∉ rest := fun hm => h (List.mem_cons_of_mem _ hm)
    simp [splitOnChar, ih hrest, hc]

theorem splitOnChar_append_sep (sep : Char) (x t : Str) (h : sep ∉ x) :
    splitOnChar sep (x ++ sep :: t) = x :: splitOnChar sep t := by
  induction x with
  | nil =>
    simp only [List.nil_append, splitOnChar]
    cases hs : splitOnChar sep t with
    | nil => exact absurd hs (splitOnChar_ne_nil sep t)
    | cons f fs => simp
  | cons c x2 ih =>
    have hc : c ≠ sep := by rintro rfl; exact h (List.mem_cons_self _ _)
    have hx : sep ∉ x2 := fun hm => h (List.mem_cons_of_mem _ hm)
    simp only [List.cons_append, splitOnChar, List.append_eq]
    rw [ih hx]
    simp [hc]

theorem splitOnChar_joinSep (sep : Char) (ps : List Str) (hne : ps ≠ [])
    (h : ∀ p ∈ ps, sep ∉ p) :
    splitOnChar sep (joinSep [sep] ps) = ps := by
  induction ps with
  | nil => exact absurd rfl hne
  | cons x rest ih =>
    cases rest with
    | nil => simpa [joinSep] using splitOnChar_no_sep sep x (h x (by simp))
    | cons y rest2 =>
      have hx : sep ∉ x := h x (by simp)
      have hjoin : joinSep [sep] (x :: y :: rest2) = x ++ sep :: joinSep [sep] (y :: rest2) := by
        simp [joinSep]
      rw [hjoin, splitOnChar_append_sep sep x _ hx,
        ih (by simp) (fun p hp => h p (List.mem_cons_of_mem _ hp))]

/-- Every character of a `joinSep` output comes from a piece or the
separator string. -/
theorem mem_joinSep (sep : Str) (ps : List Str) (c : Char)
    (hc : c ∈ joinSep sep ps) : c ∈ sep ∨ ∃ p ∈ ps, c ∈ p := by
  induction ps with
  | nil => simp [joinSep] at hc
  | cons x rest ih =>
    cases rest with
    | nil =>
      simp only [joinSep] at hc
      exact Or.inr ⟨x, by simp, hc⟩
    | cons y rest2 =>
      simp only [joinSep, List.append_assoc, List.mem_append] at hc
      rcases hc with hx | hs | hrest
      · exact Or.inr ⟨x, by simp, hx⟩
      · exact Or.inl hs
      · rcases ih hrest with h1 | ⟨p, hp, hcp⟩
        · exact Or.inl h1
        · exact Or.inr ⟨p, List.mem_cons_of_mem _ hp, hcp⟩

theorem length_dropWhile_le (p : Char → Bool) (l : Str) :
    (l.dropWhile p).length ≤ l.length := by
  induction l with
  | nil => simp
  | cons c rest ih =>
    by_cases h : p c
    · simp [List.dropWhile_cons, h]
      omega
    · simp [List.dropWhile_cons, h]

theorem dropWhile_eq_self_of_length (p : Char → Bool) (l : Str)
    (h : (l.dropWhile p).length = l.length) : l.dropWhile p = l := by
  cases l with
  | nil => rfl
  | cons c rest =>
    by_cases hp : p c
    · exfalso
      have hle := length_dropWhile_le p rest
      simp [List.dropWhile_cons, hp] at h
      omega
    · simp [List.dropWhile_cons, hp]

theorem trimL_length_le (s : Str) : (trimL s).length ≤ s.length :=
  length_dropWhile_le _ _

theorem trimR_length_le (s : Str) : (trimR s).length ≤ s.length := by
  have := length_dropWhile_le isWsChar s.reverse
  simpa [trimR] using this

theorem trimL_eq_self_of_trim_eq_self (s : Str) (h : trim s = s) : trimL s = s := by
  have h1 : (trimR (trimL s)).length = s.length := by rw [← trim, h]
  have h2 : (trimR (trimL s)).length ≤ (trimL s).length := trimR_length_le _
  have h3 : (trimL s).length ≤ s.length := trimL_length_le s
  have h4 : (trimL s).length = s.length := by omega
  simpa [trimL] using dropWhile_eq_self_of_length isWsChar s (by simpa [trimL] using h4)

theorem trimR_eq_self_of_trim_eq_self (s : Str) (h : trim s = s) : trimR s = s := by
  have hl := trimL_eq_self_of_trim_eq_self s h
  calc trimR s = trimR (trimL s) := by rw [hl]
    _ = s := h

theorem dropWhile_reverse_eq_of_trim (s : Str) (h : trim s = s) :
    s.reverse.dropWhile isWsChar = s.reverse := by
  have h2 := congrArg List.reverse (trimR_eq_self_of_trim_eq_self s h)
  simpa [trimR] using h2

theorem trim_pad (x : Str) (h : trim x = x) :
    trim (' ' :: (x ++ [' '])) = x := by
  cases x with
  | nil => decide
  | cons c xs =>
    have hL : trimL (c :: xs) = c :: xs := trimL_eq_self_of_trim_eq_self _ h
    have hc : isWsChar c = false := by
      by_contra hcc
      rw [Bool.not_eq_false] at hcc
      have h2 : trimL (c :: xs) = xs.dropWhile isWsChar := by
        simp [trimL, List.dropWhile_cons, hcc]
      have h3 := congrArg List.length (hL.symm.trans h2)
      have h4 := length_dropWhile_le isWsChar xs
      simp at h3
      omega
    have hsp : isWsChar ' ' = true := by decide
    have e1 : trimL (' ' :: ((c :: xs) ++ [' '])) = (c :: xs) ++ [' '] := by
      simp [trimL, List.dropWhile_cons, hc, hsp]
    have e2 : trimR ((c :: xs) ++ [' ']) = c :: xs := by
      have hrev := dropWhile_reverse_eq_of_trim (c :: xs) h
      simp [trimR, List.reverse_append, List.dropWhile_cons, hsp]
      simpa using hrev
    show trim (' ' :: ((c :: xs) ++ [' '])) = c :: xs
    rw [trim, e1, e2]

theorem mem_of_head? {s : Str} {c : Char} (h : s.head? = some c) : c ∈ s := by
  cases s with
  | nil => simp at h
  | cons d rest =>
    simp at h
    simp [h]

theorem mem_of_getLast? {s : Str} {c : Char} (h : s.getLast? = some c) : c ∈ s := by
  have h1 : s.reverse.head? = some c := by rw [List.head?_reverse]; exact h
  have h2 := mem_of_head? h1
  simpa using h2

theorem trimL_eq_self_of_head (s : Str)
    (h : ∀ c, s.head? = some c → isWsChar c = false) : trimL s = s := by
  cases s with
  | nil => rfl
  | cons c rest => simp [trimL, List.dropWhile_cons, h c rfl]

theorem trimR_eq_self_of_getLast (s : Str)
    (h : ∀ c, s.getLast? = some c → isWsChar c = false) : trimR s = s := by
  cases hr : s.reverse with
  | nil =>
    have : s = [] := by simpa using congrArg List.reverse hr
    simp [trimR, this]
  | cons c rest =>
    have hlast : s.getLast? = some c := by
      rw [← List.head?_reverse, hr]
      rfl
    have hc := h c hlast
    rw [trimR, hr, List.dropWhile_cons]
    simp only [hc, Bool.false_eq_true, if_false]
    rw [← hr, List.reverse_reverse]

theorem trim_eq_self_of_no_ws (s : Str) (h : ∀ c ∈ s, isWsChar c = false) :
    trim s = s := by
  have h1 : trimL s = s := trimL_eq_self_of_head s (fun c hc => h c (mem_of_head? hc))
  have h2 : trimR s = s := trimR_eq_self_of_getLast s (fun c hc => h c (mem_of_getLast? hc))
  rw [trim, h1, h2]

/-! ## Lemmas about serialized lines -/

theorem mkLine_shape (cs : List Str) :
    mkLine cs = '|' :: ((' ' :: (joinSep sepStr cs ++ [' '])) ++ ['|']) := by
  simp [mkLine]

theorem trim_pipe_bounded (xs : Str) :
    trim ('|' :: (xs ++ ['|'])) = '|' :: (xs ++ ['|']) := by
  have h1 : trimL ('|' :: (xs ++ ['|'])) = '|' :: (xs ++ ['|']) :=
    trimL_eq_self_of_head _ (by
      intro c hc
      simp at hc
      subst hc
      decide)
  have h2 : trimR ('|' :: (xs ++ ['|'])) = '|' :: (xs ++ ['|']) :=
    trimR_eq_self_of_getLast _ (by
      intro c hc
      have hl : ('|' :: (xs ++ ['|'])).getLast? = some '|' := by
        rw [show '|' :: (xs ++ ['|']) = ('|' :: xs) ++ ['|'] from rfl]
        exact List.getLast?_concat _
      rw [hl] at hc
      simp at hc
      subst hc
      decide)
  rw [trim, h1, h2]

theorem trim_mkLine (cs : List Str) : trim (mkLine cs) = mkLine cs := by
  rw [mkLine_shape]
  exact trim_pipe_bounded _

theorem head?_mkLine (cs : List Str) : (mkLine cs).head? = some '|' := rfl

theorem getLast?_mkLine (cs : List Str) : (mkLine cs).getLast? = some '|' := by
  rw [mkLine_shape]
  rw [show ('|' :: ((' ' :: (joinSep sepStr cs ++ [' '])) ++ ['|']))
      = ('|' :: ' ' :: (joinSep sepStr cs ++ [' '])) ++ ['|'] from rfl]
  exact List.getLast?_concat _

theorem isTableLine_mkLine (cs : List Str) : isTableLine (mkLine cs) = true := by
  simp [isTableLine, trim_mkLine, head?_mkLine, getLast?_mkLine]

theorem sliceInner_mkLine (cs : List Str) :
    sliceInner (mkLine cs) = ' ' :: (joinSep sepStr cs ++ [' ']) := by
  rw [mkLine_shape, sliceInner, List.drop_one, List.tail_cons]
  exact List.dropLast_concat

/-- The padding a serialized cell receives inside a line. -/
def pad (x : Str) : Str := ' ' :: (x ++ [' '])

theorem pad_join (cs : List Str) (hne : cs ≠ []) :
    ' ' :: (joinSep sepStr cs ++ [' ']) = joinSep ['|'] (cs.map pad) := by
  induction cs with
  | nil => exact absurd rfl hne
  | cons x rest ih =>
    cases rest with
    | nil => simp [joinSep, pad]
    | cons y rest2 =>
      calc ' ' :: (joinSep sepStr (x :: y :: rest2) ++ [' '])
          = (' ' :: (x ++ [' '])) ++ '|' :: (' ' :: (joinSep sepStr (y :: rest2) ++ [' '])) := by
            simp [joinSep, sepStr]
        _ = pad x ++ '|' :: joinSep ['|'] ((y :: rest2).map pad) := by
            rw [ih (by simp)]
            rfl
        _ = joinSep ['|'] ((x :: y :: rest2).map pad) := by
            simp [joinSep]

theorem pipe_not_mem_pad {x : Str} (h : ('|' : Char) ∉ x) : ('|' : Char) ∉ pad x := by
  simp only [pad, List.mem_cons, List.mem_append, List.mem_singleton]
  rintro (h1 | h2 | h3)
  · exact absurd h1 (by decide)
  · exact h h2
  · exact absurd h3 (by decide)

theorem parseTableRow_mkLine (cs : List Str) (hne : cs ≠ [])
    (hpipe : ∀ x ∈ cs, ('|' : Char) ∉ x) (htrim : ∀ x ∈ cs, trim x = x) :
    parseTableRow (mkLine cs) = { cells := cs.map (fun c => { content := c }) } := by
  rw [parseTableRow, trim_mkLine, sliceInner_mkLine, pad_join cs hne,
    splitOnChar_joinSep '|' (cs.map pad) (by simpa using hne)
      (by
        intro p hp
        obtain ⟨x, hx, rfl⟩ := List.mem_map.1 hp
        exact pipe_not_mem_pad (hpipe x hx))]
  congr 1
  rw [List.map_map]
  apply List.map_congr_left
  intro x hx
  simp only [Function.comp_apply]
  rw [show pad x = ' ' :: (x ++ [' ']) from rfl, trim_pad x (htrim x hx)]

theorem parseSeparator_mkLine (ts : List Str) (hne : ts ≠ [])
    (hpipe : ∀ x ∈ ts, ('|' : Char) ∉ x) (htrim : ∀ x ∈ ts, trim x = x) :
    parseSeparator (mkLine ts) = ts := by
  rw [parseSeparator, trim_mkLine, sliceInner_mkLine, pad_join ts hne,
    splitOnChar_joinSep '|' (ts.map pad) (by simpa using hne)
      (by
        intro p hp
        obtain ⟨x, hx, rfl⟩ := List.mem_map.1 hp
        exact pipe_not_mem_pad (hpipe x hx))]
  rw [List.map_map]
  have h2 : ts.map (trim ∘ pad) = ts.map id := List.map_congr_left (fun x hx => by
    simp only [Function.comp_apply, id_eq]
    rw [show pad x = ' ' :: (x ++ [' ']) from rfl, trim_pad x (htrim x hx)])
  rw [h2, List.map_id]

theorem mem_mkLine (cs : List Str) (c : Char) (hc : c ∈ mkLine cs) :
    c = '|' ∨ c = ' ' ∨ ∃ x ∈ cs, c ∈ x := by
  simp only [mkLine, List.mem_cons, List.mem_append] at hc
  rcases hc with rfl | rfl | hc | hc
  · exact Or.inl rfl
  · exact Or.inr (Or.inl rfl)
  · rcases mem_joinSep sepStr cs c hc with hs | hx
    · have hs2 : c = ' ' ∨ c = '|' ∨ c = ' ' := by simpa [sepStr] using hs
      rcases hs2 with rfl | rfl | rfl
      · exact Or.inr (Or.inl rfl)
      · exact Or.inl rfl
      · exact Or.inr (Or.inl rfl)
    · exact Or.inr (Or.inr hx)
  · have hc2 : c = ' ' ∨ c = '|' := by simpa using hc
    rcases hc2 with rfl | rfl
    · exact Or.inr (Or.inl rfl)
    · exact Or.inl rfl

/-- The separator-token regex `^:?-+:?$` of `TableValidator.validateTable`:
an optional leading colon, one or more hyphens, an optional trailing
colon. -/
def sepTokenValid (s : Str) : Bool :=
  let s1 := if s.head? == some ':' then s.drop 1 else s
  let dashes := s1.takeWhile (fun c => c == '-')
  let rest := s1.dropWhile (fun c => c == '-')
  !dashes.isEmpty && (rest.isEmpty || rest == [':'])

theorem sepTokenValid_chars (s : Str) (h : sepTokenValid s = true) :
    ∀ c ∈ s, c = ':' ∨ c = '-' := by
  have main : ∀ s1 : Str,
      (!(s1.takeWhile (fun c => c == '-')).isEmpty
        && ((s1.dropWhile (fun c => c == '-')).isEmpty
            || s1.dropWhile (fun c => c == '-') == [':'])) = true →
      ∀ c ∈ s1, c = ':' ∨ c = '-' := by
    intro s1 h1 c hc
    simp only [Bool.and_eq_true, Bool.not_eq_true', Bool.or_eq_true] at h1
    rw [← List.takeWhile_append_dropWhile (p := fun c => c == '-') (l := s1)] at hc
    rcases List.mem_append.1 hc with h2 | h3
    · exact Or.inr (by simpa using List.mem_takeWhile_imp h2)
    · rcases h1.2 with he | hr
      · rw [List.isEmpty_iff] at he
        rw [he] at h3
        simp at h3
      · have he2 : s1.dropWhile (fun c => c == '-') = [':'] := by simpa using hr
        rw [he2] at h3
        exact Or.inl (by simpa using h3)
  intro c hc
  simp only [sepTokenValid] at h
  by_cases hh : (s.head? == some ':') = true
  · rw [if_pos hh] at h
    cases s with
    | nil => simp at hc
    | cons d rest =>
      have hd : d = ':' := by simpa using hh
      rcases List.mem_cons.1 hc with rfl | hcr
      · exact Or.inl hd
      · exact main (List.drop 1 (d :: rest)) h c (by simpa using hcr)
  · rw [if_neg hh] at h
    exact main s h c hc

theorem nl_not_mem_mkLine (cs : List Str) (h : ∀ x ∈ cs, ('\n' : Char) ∉ x) :
    ('\n' : Char) ∉ mkLine cs := by
  intro hmem
  rcases mem_mkLine cs _ hmem with h1 | h2 | ⟨x, hx, hcx⟩
  · exact absurd h1 (by decide)
  · exact absurd h2 (by decide)
  · exact h x hx hcx

theorem isSeparatorLine_mkLine (ts : List Str)
    (hts : ∀ x ∈ ts, ∀ c ∈ x, isSepChar c = true) :
    isSeparatorLine (mkLine ts) = true := by
  rw [isSeparatorLine]
  simp only [trim_mkLine]
  have hall : (mkLine ts).all isSepChar = true := by
    rw [List.all_eq_true]
    intro c hcm
    rcases mem_mkLine ts c hcm with rfl | rfl | ⟨x, hx, hcx⟩
    · decide
    · decide
    · exact hts x hx c hcx
  have hne : (mkLine ts).isEmpty = false := rfl
  simp [head?_mkLine, getLast?_mkLine, hall, hne]

theorem findFrom_zero (l : Str) (ls : List Str) (h : isTableLine l = true) :
    findFrom (l :: ls) 0 = some 0 := by
  simp [findFrom, findFromGo, h]

theorem parseRowsGo_all (suf : List Str) (i : Nat)
    (h : ∀ l ∈ suf, isTableLine l = true) :
    parseRowsGo suf i = (suf.map parseTableRow, i + suf.length) := by
  induction suf generalizing i with
  | nil => simp [parseRowsGo]
  | cons l rest ih =>
    rw [parseRowsGo]
    rw [if_pos (h l (List.mem_cons_self _ _))]
    rw [ih (i + 1) (fun x hx => h x (List.mem_cons_of_mem _ hx))]
    simp
    omega

theorem parseRows_all (pre suf : List Str)
    (h : ∀ l ∈ suf, isTableLine l = true) :
    parseRows (pre ++ suf) pre.length = (suf.map parseTableRow, (pre ++ suf).length) := by
  rw [parseRows, List.drop_left, parseRowsGo_all suf pre.length h]
  simp [Nat.add_comm]

/-! ## Well-formed tables and the serialization round trip (claim C1) -/

/-- A cell content that survives serialization untouched: no embedded
newline, no embedded pipe (the spec's data-model invariant), and no
surrounding whitespace (the parser trims every cell). -/
def cleanContent (s : Str) : Prop :=
  ('\n' : Char) ∉ s ∧ ('|' : Char) ∉ s ∧ trim s = s

/-- A well-formed table: at least one header cell, at least one cell per
row, a nonempty separator whose tokens match the alignment-token regex
`^:?-+:?$`, and clean cell contents everywhere. -/
def wellFormedTable (t : ParsedTable) : Prop :=
  t.headers.cells ≠ [] ∧
  (∀ c ∈ t.headers.cells, cleanContent c.content) ∧
  t.separator ≠ [] ∧
  (∀ tok ∈ t.separator, sepTokenValid tok = true) ∧
  (∀ r ∈ t.rows, r.cells ≠ [] ∧ ∀ c ∈ r.cells, cleanContent c.content)

theorem map_content_mk (cells : List TableCell) :
    (cells.map TableCell.content).map (fun s => TableCell.mk s) = cells := by
  rw [List.map_map]
  exact List.map_congr_left (fun c _ => rfl) |>.trans (List.map_id cells)

theorem sepTok_not_ws {tok : Str} (h : sepTokenValid tok = true) :
    ∀ c ∈ tok, isWsChar c = false := by
  intro c hc
  rcases sepTokenValid_chars tok h c hc with rfl | rfl
  · decide
  · decide

theorem sepTok_no_pipe {tok : Str} (h : sepTokenValid tok = true) :
    ('|' : Char) ∉ tok := by
  intro hc
  rcases sepTokenValid_chars tok h '|' hc with h1 | h1
  · exact absurd h1 (by decide)
  · exact absurd h1 (by decide)

theorem sepTok_no_nl {tok : Str} (h : sepTokenValid tok = true) :
    ('\n' : Char) ∉ tok := by
  intro hc
  rcases sepTokenValid_chars tok h '\n' hc with h1 | h1
  · exact absurd h1 (by decide)
  · exact absurd h1 (by decide)

/-- Parsing the serialization of a well-formed table recovers the table
itself up to the source-position snapshot fields. -/
theorem parseTable_generateTable (t : ParsedTable) (hwf : wellFormedTable t) :
    parseTable (generateTable t) 0
      = some { headers := t.headers
               separator := t.separator
               rows := t.rows
               startLine := 0
               endLine := t.rows.length + 1 } := by
  obtain ⟨hh_ne, hh_clean, hs_ne, hs_tok, hr⟩ := hwf
  set L0 := mkLine (t.headers.cells.map TableCell.content) with hL0
  set L1 := mkLine t.separator with hL1
  set Ls := t.rows.map (fun r => mkLine (r.cells.map TableCell.content)) with hLs
  have hlines : splitOnChar '\n' (generateTable t) = L0 :: L1 :: Ls := by
    rw [generateTable]
    apply splitOnChar_joinSep
    · simp
    · intro p hp
      rcases List.mem_cons.1 hp with rfl | hp2
      · apply nl_not_mem_mkLine
        intro x hx
        obtain ⟨cell, hcell, rfl⟩ := List.mem_map.1 hx
        exact (hh_clean cell hcell).1
      · rcases List.mem_cons.1 hp2 with rfl | hp3
        · exact nl_not_mem_mkLine _ (fun x hx => sepTok_no_nl (hs_tok x hx))
        · obtain ⟨row, hrow, rfl⟩ := List.mem_map.1 hp3
          apply nl_not_mem_mkLine
          intro x hx
          obtain ⟨cell, hcell, rfl⟩ := List.mem_map.1 hx
          exact ((hr row hrow).2 cell hcell).1
  have hheaders : parseTableRow L0 = t.headers := by
    rw [hL0, parseTableRow_mkLine _ (by simpa using hh_ne)
      (by
        intro x hx
        obtain ⟨cell, hcell, rfl⟩ := List.mem_map.1 hx
        exact (hh_clean cell hcell).2.1)
      (by
        intro x hx
        obtain ⟨cell, hcell, rfl⟩ := List.mem_map.1 hx
        exact (hh_clean cell hcell).2.2)]
    rw [map_content_mk t.headers.cells]
  have hsepline : isSeparatorLine L1 = true := by
    rw [hL1]
    apply isSeparatorLine_mkLine
    intro x hx c hc
    rcases sepTokenValid_chars x (hs_tok x hx) c hc with rfl | rfl
    · decide
    · decide
  have hsep : parseSeparator L1 = t.separator := by
    rw [hL1]
    exact parseSeparator_mkLine _ hs_ne
      (fun x hx => sepTok_no_pipe (hs_tok x hx))
      (fun x hx => trim_eq_self_of_no_ws x (sepTok_not_ws (hs_tok x hx)))
  have hrows : Ls.map parseTableRow = t.rows := by
    rw [hLs, List.map_map]
    apply (List.map_congr_left _).trans (List.map_id t.rows)
    intro row hrow
    simp only [Function.comp_apply, id_eq]
    rw [parseTableRow_mkLine _ (by simpa using (hr row hrow).1)
      (by
        intro x hx
        obtain ⟨cell, hcell, rfl⟩ := List.mem_map.1 hx
        exact ((hr row hrow).2 cell hcell).2.1)
      (by
        intro x hx
        obtain ⟨cell, hcell, rfl⟩ := List.mem_map.1 hx
        exact ((hr row hrow).2 cell hcell).2.2)]
    rw [map_content_mk row.cells]
  have hrowsparse : parseRows (L0 :: L1 :: Ls) 2 = (t.rows, Ls.length + 2) := by
    have h0 := parseRows_all [L0, L1] Ls (by
      intro l hl
      rw [hLs] at hl
      obtain ⟨row, hrow, rfl⟩ := List.mem_map.1 hl
      exact isTableLine_mkLine _)
    have e : ([L0, L1] : List Str) ++ Ls = L0 :: L1 :: Ls := rfl
    have h2 : ([L0, L1] : List Str).length = 2 := rfl
    rw [e, h2] at h0
    calc parseRows (L0 :: L1 :: Ls) 2
        = (Ls.map parseTableRow, (L0 :: L1 :: Ls).length) := h0
      _ = (t.rows, Ls.length + 2) := by
          rw [hrows]
          simp
  rw [parseTable]
  simp only [hlines]
  rw [findFrom_zero L0 (L1 :: Ls) (hL0 ▸ isTableLine_mkLine _)]
  have hlen : 0 + 1 < (L0 :: L1 :: Ls).length := by simp
  simp only [Option.some.injEq]
  rw [dif_pos hlen]
  have hget1 : (L0 :: L1 :: Ls)[0 + 1] = L1 := rfl
  rw [hget1, if_pos hsepline]
  simp only [List.getD_cons_zero]
  rw [hheaders, hsep, hrowsparse]
  simp [hLs]

instance (s : Str) : Decidable (cleanContent s) := by
  unfold cleanContent
  infer_instance

instance (t : ParsedTable) : Decidable (wellFormedTable t) := by
  unfold wellFormedTable
  infer_instance

/-- Claim C1: round-trip idempotence of the parser/serializer — for every
well-formed table `t`, serializing `t`, parsing the result from line 0,
and serializing again yields the same string:
`serialize(locate(serialize(t), 0)) == serialize(t)`. -/
theorem c1_roundtrip_idempotence (t : ParsedTable) (hwf : wellFormedTable t) :
    (parseTable (generateTable t) 0).map generateTable = some (generateTable t) := by
  rw [parseTable_generateTable t hwf]
  simp [generateTable]

/-- Concrete instance of claim C1 at a two-column, one-row table. -/
theorem c1_roundtrip_idempotence_witness :
    wellFormedTable
      { headers := { cells := [{ content := ['N', 'a'] }, { content := ['A', 'g'] }] }
        separator := [['-', '-', '-'], [':', '-', '-', ':']]
        rows := [{ cells := [{ content := ['J', 'o'] }, { content := ['2', '5'] }] }]
        startLine := 0
        endLine := 2 }
    ∧ (parseTable
        (generateTable
          { headers := { cells := [{ content := ['N', 'a'] }, { content := ['A', 'g'] }] }
            separator := [['-', '-', '-'], [':', '-', '-', ':']]
            rows := [{ cells := [{ content := ['J', 'o'] }, { content := ['2', '5'] }] }]
            startLine := 0
            endLine := 2 }) 0).map generateTable
      = some (generateTable
          { headers := { cells := [{ content := ['N', 'a'] }, { content := ['A', 'g'] }] }
            separator := [['-', '-', '-'], [':', '-', '-', ':']]
            rows := [{ cells := [{ content := ['J', 'o'] }, { content := ['2', '5'] }] }]
            startLine := 0
            endLine := 2 }) :=
  ⟨by decide, c1_roundtrip_idempotence _ (by decide)⟩

/-! ## Claim C2: no valid separator line, no table -/

/-- Claim C2: for every input text, once the first table-shaped line is
found at index `s`, if the immediately following line is missing or is
not a syntactically valid separator line, `parseTable` returns `null`;
being a total function, the model also throws no exception. -/
theorem c2_missing_separator_fails (content : Str) (startLine s : Nat)
    (hfind : findFrom (splitOnChar '\n' content) startLine = some s)
    (hsep : (splitOnChar '\n' content).length ≤ s + 1
      ∨ isSeparatorLine ((splitOnChar '\n' content).getD (s + 1) []) = false) :
    parseTable content startLine = none := by
  rw [parseTable]
  simp only [hfind]
  by_cases hlt : s + 1 < (splitOnChar '\n' content).length
  · rw [dif_pos hlt]
    rcases hsep with h1 | h2
    · omega
    · have hg : (splitOnChar '\n' content)[s + 1]
          = (splitOnChar '\n' content).getD (s + 1) [] := by
        rw [List.getD_eq_getElem?_getD, List.getElem?_eq_getElem hlt]
        rfl
      rw [if_neg (by rw [hg, h2]; simp)]
  · rw [dif_neg hlt]

/-- Concrete instance of claim C2: the line after the table start is not
a separator line, so the parse fails. -/
theorem c2_missing_separator_fails_witness :
    findFrom (splitOnChar '\n' ['|', ' ', 'a', ' ', '|', '\n', 'x', 'y', 'z']) 0 = some 0
    ∧ isSeparatorLine ((splitOnChar '\n'
        ['|', ' ', 'a', ' ', '|', '\n', 'x', 'y', 'z']).getD 1 []) = false
    ∧ parseTable ['|', ' ', 'a', ' ', '|', '\n', 'x', 'y', 'z'] 0 = none :=
  ⟨by decide, by decide,
    c2_missing_separator_fails _ 0 0 (by decide) (Or.inr (by decide))⟩

/-! ## Claim C10: the parser never produces a zero-column table -/

theorem parseTableRow_cells_ne_nil (line : Str) : (parseTableRow line).cells ≠ [] := by
  rw [parseTableRow]
  simp only [ne_eq, List.map_eq_nil_iff]
  exact splitOnChar_ne_nil _ _

theorem parseRowsGo_cells_ne_nil (cur : List Str) (i : Nat) :
    ∀ r ∈ (parseRowsGo cur i).1, r.cells ≠ [] := by
  induction cur generalizing i with
  | nil =>
    intro r hr
    simp [parseRowsGo] at hr
  | cons l rest ih =>
    intro r hr
    rw [parseRowsGo] at hr
    by_cases htl : isTableLine l = true
    · rw [if_pos htl] at hr
      rcases List.mem_cons.1 hr with rfl | hr2
      · exact parseTableRow_cells_ne_nil _
      · exact ih (i + 1) r hr2
    · rw [if_neg htl] at hr
      simp at hr

/-- Claim C10: every table returned by `parseTable` has at least one
header cell, and every parsed row has at least one cell, because the
de-delimited split always yields at least one field. -/
theorem c10_parser_min_columns (content : Str) (startLine : Nat) (t : ParsedTable)
    (h : parseTable content startLine = some t) :
    1 ≤ t.headers.cells.length ∧ ∀ r ∈ t.rows, 1 ≤ r.cells.length := by
  rw [parseTable] at h
  cases hf : findFrom (splitOnChar '\n' content) startLine with
  | none => simp [hf] at h
  | some s =>
    simp only [hf] at h
    by_cases hlt : s + 1 < (splitOnChar '\n' content).length
    · rw [dif_pos hlt] at h
      by_cases hsep : isSeparatorLine (splitOnChar '\n' content)[s + 1] = true
      · rw [if_pos hsep] at h
        obtain rfl := Option.some_injective _ h.symm
        constructor
        · exact List.length_pos.2 (parseTableRow_cells_ne_nil _)
        · intro r hr
          exact List.length_pos.2
            (parseRowsGo_cells_ne_nil ((splitOnChar '\n' content).drop (s + 2)) (s + 2) r hr)
      · rw [if_neg hsep] at h
        simp at h
    · rw [dif_neg hlt] at h
      simp at h

/-- Concrete instance of claim C10. -/
theorem c10_parser_min_columns_witness :
    parseTable ['|', 'a', '|', '\n', '|', '-', '|', '\n', '|', 'b', '|'] 0
      = some { headers := { cells := [{ content := ['a'] }] }
               separator := [['-']]
               rows := [{ cells := [{ content := ['b'] }] }]
               startLine := 0
               endLine := 2 }
    ∧ (1 ≤ ({ cells := [{ content := ['a'] }] } : TableRow).cells.length
       ∧ ∀ r ∈ [({ cells := [{ content := ['b'] }] } : TableRow)], 1 ≤ r.cells.length) :=
  ⟨by decide,
    c10_parser_min_columns ['|', 'a', '|', '\n', '|', '-', '|', '\n', '|', 'b', '|'] 0
      { headers := { cells := [{ content := ['a'] }] }
        separator := [['-']]
        rows := [{ cells := [{ content := ['b'] }] }]
        startLine := 0
        endLine := 2 }
      (by decide)⟩

/-! ## Claim C3: sort direction toggle (`TableManager.sortTable`) -/

/-- The sort bookkeeping of `TableManager`: `sortAscending` starts true,
`lastSortedColumn` starts -1. -/
structure SortState where
  sortAscending : Bool
  lastSortedColumn : Int
deriving DecidableEq, Repr

/-- The column-resolution logic of `TableManager.sortTable`: the
explicit argument if given; else the cursor column when it is valid and
differs from the last sorted column; else the last sorted column when
still in range; else the cursor column when valid; else 0.  The result
is finally clipped to 0 when out of range. -/
def resolveSortColumn (specified : Option Int) (cursorCol : Int)
    (lastSorted : Int) (numCols : Int) : Int :=
  let c :=
    match specified with
    | some sc => sc
    | none =>
      if 0 ≤ cursorCol ∧ 0 ≤ lastSorted ∧ cursorCol ≠ lastSorted then cursorCol
      else if 0 ≤ lastSorted ∧ lastSorted < numCols then lastSorted
      else if 0 ≤ cursorCol then cursorCol
      else 0
  if c < 0 ∨ numCols ≤ c then 0 else c

/-- The direction-toggle and bookkeeping update of `sortTable`: the same
column toggles `sortAscending`, a different column resets it to true;
`lastSortedColumn` is then set to the resolved column. -/
def sortStateUpdate (st : SortState) (c : Int) : SortState :=
  { sortAscending := if st.lastSortedColumn = c then !st.sortAscending else true
    lastSortedColumn := c }

/-- One `sortTable` call's effect on the sort state. -/
def sortTableStep (st : SortState) (specified : Option Int) (cursorCol : Int)
    (numCols : Int) : SortState :=
  sortStateUpdate st (resolveSortColumn specified cursorCol st.lastSortedColumn numCols)

/-- Claim C3: for every `sortTable` call resolving to column `c`, if `c`
equals the stored `lastSortedColumn` the ascending flag is negated,
otherwise it is set to true; afterwards `lastSortedColumn = c`.
Consequently a second sort resolving to the same column runs descending,
and sorting a different column resets to ascending. -/
theorem c3_sort_direction_toggle (st : SortState) (specified : Option Int)
    (cursorCol numCols c : Int)
    (hc : c = resolveSortColumn specified cursorCol st.lastSortedColumn numCols) :
    ((sortTableStep st specified cursorCol numCols).lastSortedColumn = c)
    ∧ (st.lastSortedColumn = c →
        (sortTableStep st specified cursorCol numCols).sortAscending = !st.sortAscending)
    ∧ (st.lastSortedColumn ≠ c →
        (sortTableStep st specified cursorCol numCols).sortAscending = true)
    ∧ (st.lastSortedColumn ≠ c → 0 ≤ c → c < numCols →
        (sortTableStep (sortTableStep st specified cursorCol numCols)
          (some c) cursorCol numCols).sortAscending = false) := by
  have hstep : sortTableStep st specified cursorCol numCols = sortStateUpdate st c := by
    rw [sortTableStep, ← hc]
  refine ⟨by rw [hstep]; rfl, ?_, ?_, ?_⟩
  · intro h
    rw [hstep]
    simp [sortStateUpdate, h]
  · intro h
    rw [hstep]
    simp [sortStateUpdate, h]
  · intro h h0 hn
    rw [hstep]
    have hres : resolveSortColumn (some c) cursorCol
        (sortStateUpdate st c).lastSortedColumn numCols = c := by
      show resolveSortColumn (some c) cursorCol c numCols = c
      simp only [resolveSortColumn]
      rw [if_neg (by omega)]
    rw [sortTableStep, hres]
    simp [sortStateUpdate, h]

/-- Concrete instance of claim C3: fresh state, cursor in column 0 of a
two-column table; the call resolves to column 0, sorts ascending, and a
repeat call on the same column sorts descending. -/
theorem c3_sort_direction_toggle_witness :
    ((sortTableStep { sortAscending := true, lastSortedColumn := -1 } none 0 2).lastSortedColumn
        = 0)
    ∧ (({ sortAscending := true, lastSortedColumn := -1 } : SortState).lastSortedColumn = 0 →
        (sortTableStep { sortAscending := true, lastSortedColumn := -1 } none 0 2).sortAscending
          = !(true : Bool))
    ∧ (({ sortAscending := true, lastSortedColumn := -1 } : SortState).lastSortedColumn ≠ 0 →
        (sortTableStep { sortAscending := true, lastSortedColumn := -1 } none 0 2).sortAscending
          = true)
    ∧ (({ sortAscending := true, lastSortedColumn := -1 } : SortState).lastSortedColumn ≠ 0 →
        0 ≤ (0 : Int) → (0 : Int) < 2 →
        (sortTableStep (sortTableStep { sortAscending := true, lastSortedColumn := -1 } none 0 2)
          (some 0) 0 2).sortAscending = false) :=
  c3_sort_direction_toggle { sortAscending := true, lastSortedColumn := -1 } none 0 2 0
    (by decide)

/-! ## Claim C4: `moveColumn` atomicity (`TableManager.moveColumn`) -/

/-- JavaScript `arr.splice(from, 1)[0]` followed by
`arr.splice(to, 0, x)` for an in-range `from`: remove the element at
`from`, reinsert it at `to`. -/
def spliceMove (l : List α) (d : α) (f t : Nat) : List α :=
  (l.eraseIdx f).insertIdx t (l.getD f d)

/-- Separator length and per-row cell counts agree with the header (the
validator's lock-step shape). -/
def lockStep (t : ParsedTable) : Prop :=
  t.separator.length = t.headers.cells.length ∧
  ∀ r ∈ t.rows, r.cells.length = t.headers.cells.length

instance (t : ParsedTable) : Decidable (lockStep t) := by
  unfold lockStep
  infer_instance

/-- `TableManager.moveColumn`, as a pure operation on the parsed table:
`none` models the early return (nothing mutated, no text written back)
when either index is outside `[0, headers.cells.length)`.  The header
cell, the separator token and the cell of every row are spliced with the
same pair of indices.  (For a row shorter than the index the source
would splice in an `undefined` entry; the model, whose cells always
exist, is read on lock-step tables.) -/
def moveColumn (t : ParsedTable) (fromIdx toIdx : Int) : Option ParsedTable :=
  let n : Int := t.headers.cells.length
  if fromIdx < 0 ∨ n ≤ fromIdx ∨ toIdx < 0 ∨ n ≤ toIdx then none
  else
    let f := fromIdx.toNat
    let d := toIdx.toNat
    some { t with
      headers := { cells := spliceMove t.headers.cells (TableCell.mk []) f d }
      separator := spliceMove t.separator [] f d
      rows := t.rows.map (fun r => { cells := spliceMove r.cells (TableCell.mk []) f d }) }

theorem spliceMove_length {α : Type} (l : List α) (d : α) (f t : Nat)
    (hf : f < l.length) (ht : t ≤ l.length - 1) :
    (spliceMove l d f t).length = l.length := by
  rw [spliceMove, List.length_insertIdx]
  · rw [List.length_eraseIdx, if_pos hf]
    omega
  · rw [List.length_eraseIdx, if_pos hf]
    exact ht

/-- Claim C4: `moveColumn` with an index outside
`[0, headers.cells.length)` mutates nothing at all (refusal, modelled by
`none`); with both indices in range, the header cell, the separator
token and the cell at that index of every row are spliced in lock-step
with the same pair of indices, and on a lock-step table every column
count is preserved, as are the position-snapshot fields. -/
theorem c4_moveColumn_atomic (t : ParsedTable) (fromIdx toIdx : Int) :
    ((fromIdx < 0 ∨ (t.headers.cells.length : Int) ≤ fromIdx
        ∨ toIdx < 0 ∨ (t.headers.cells.length : Int) ≤ toIdx) →
      moveColumn t fromIdx toIdx = none)
    ∧ (0 ≤ fromIdx → fromIdx < (t.headers.cells.length : Int) →
       0 ≤ toIdx → toIdx < (t.headers.cells.length : Int) → lockStep t →
       ∃ t2, moveColumn t fromIdx toIdx = some t2
         ∧ t2.headers.cells
             = spliceMove t.headers.cells (TableCell.mk []) fromIdx.toNat toIdx.toNat
         ∧ t2.separator = spliceMove t.separator [] fromIdx.toNat toIdx.toNat
         ∧ t2.rows = t.rows.map (fun r =>
             { cells := spliceMove r.cells (TableCell.mk []) fromIdx.toNat toIdx.toNat })
         ∧ t2.headers.cells.length = t.headers.cells.length
         ∧ t2.separator.length = t.separator.length
         ∧ (∀ r2 ∈ t2.rows, r2.cells.length = t.headers.cells.length)
         ∧ t2.startLine = t.startLine ∧ t2.endLine = t.endLine) := by
  constructor
  · intro h
    rw [moveColumn]
    simp only
    rw [if_pos h]
  · intro h1 h2 h3 h4 hls
    have hguard : ¬(fromIdx < 0 ∨ (t.headers.cells.length : Int) ≤ fromIdx
        ∨ toIdx < 0 ∨ (t.headers.cells.length : Int) ≤ toIdx) := by omega
    set f := fromIdx.toNat with hfdef
    set d := toIdx.toNat with hddef
    refine ⟨{ t with
        headers := { cells := spliceMove t.headers.cells (TableCell.mk []) f d }
        separator := spliceMove t.separator [] f d
        rows := t.rows.map (fun r => { cells := spliceMove r.cells (TableCell.mk []) f d }) },
      ?_, rfl, rfl, rfl, ?_, ?_, ?_, rfl, rfl⟩
    · rw [moveColumn]
      simp only
      rw [if_neg hguard]
    · exact spliceMove_length _ _ _ _ (by omega) (by omega)
    · exact spliceMove_length _ _ _ _ (by rw [hls.1]; omega) (by rw [hls.1]; omega)
    · intro r2 hr2
      simp only [List.mem_map] at hr2
      obtain ⟨r, hr, rfl⟩ := hr2
      have hrlen := hls.2 r hr
      simp only
      rw [spliceMove_length _ _ _ _ (by omega) (by omega), hrlen]

/-- Concrete instance of claim C4: an out-of-range move is refused with
nothing changed, and an in-range move splices all three structures. -/
theorem c4_moveColumn_atomic_witness :
    moveColumn
      { headers := { cells := [{ content := ['a'] }, { content := ['b'] }] }
        separator := [['-'], ['-']]
        rows := [{ cells := [{ content := ['x'] }, { content := ['y'] }] }]
        startLine := 0
        endLine := 2 } 0 5 = none
    ∧ (∃ t2, moveColumn
        { headers := { cells := [{ content := ['a'] }, { content := ['b'] }] }
          separator := [['-'], ['-']]
          rows := [{ cells := [{ content := ['x'] }, { content := ['y'] }] }]
          startLine := 0
          endLine := 2 } 0 1 = some t2
        ∧ t2.headers.cells = spliceMove [{ content := ['a'] }, { content := ['b'] }]
            (TableCell.mk []) 0 1
        ∧ t2.separator = spliceMove [['-'], ['-']] [] 0 1
        ∧ t2.rows = [({ cells := [{ content := ['x'] }, { content := ['y'] }] } : TableRow)].map
            (fun r => { cells := spliceMove r.cells (TableCell.mk []) 0 1 })
        ∧ t2.headers.cells.length = 2
        ∧ t2.separator.length = 2
        ∧ (∀ r2 ∈ t2.rows, r2.cells.length = 2)
        ∧ t2.startLine = 0 ∧ t2.endLine = 2) :=
  ⟨(c4_moveColumn_atomic
      { headers := { cells := [{ content := ['a'] }, { content := ['b'] }] }
        separator := [['-'], ['-']]
        rows := [{ cells := [{ content := ['x'] }, { content := ['y'] }] }]
        startLine := 0
        endLine := 2 } 0 5).1 (by decide),
   (c4_moveColumn_atomic
      { headers := { cells := [{ content := ['a'] }, { content := ['b'] }] }
        separator := [['-'], ['-']]
        rows := [{ cells := [{ content := ['x'] }, { content := ['y'] }] }]
        startLine := 0
        endLine := 2 } 0 1).2 (by decide) (by decide) (by decide) (by decide) (by decide)⟩

/-! ## Claim C5: delete boundary refusals (`TableManager.deleteRow`,
`TableManager.deleteColumn`) -/

/-- `TableManager.deleteRow` on the parsed model: refused (`none`, a
user notice, nothing rewritten) when the table has no data rows;
otherwise the last row is removed (`rows.pop()`). -/
def deleteRow (t : ParsedTable) : Option ParsedTable :=
  if t.rows.length = 0 then none
  else some { t with rows := t.rows.dropLast }

/-- `TableManager.deleteColumn` on the parsed model: refused when the
table has at most one column; otherwise the last header cell is removed
and the last cell of every nonempty row is removed. -/
def deleteColumn (t : ParsedTable) : Option ParsedTable :=
  if t.headers.cells.length ≤ 1 then none
  else some { t with
    headers := { cells := t.headers.cells.dropLast }
    rows := t.rows.map (fun r =>
      if 0 < r.cells.length then { cells := r.cells.dropLast } else r) }

/-- Claim C5: `deleteColumn` on a one-column table is refused with the
table unchanged, `deleteRow` on a zero-row table is refused; otherwise
`deleteRow` removes the last data row, and `deleteColumn` removes the
last header cell and the last cell of every row. -/
theorem c5_delete_boundaries (t : ParsedTable) :
    (t.headers.cells.length = 1 → deleteColumn t = none)
    ∧ (t.rows = [] → deleteRow t = none)
    ∧ (t.rows ≠ [] → deleteRow t = some { t with rows := t.rows.dropLast })
    ∧ (2 ≤ t.headers.cells.length →
        deleteColumn t = some { t with
          headers := { cells := t.headers.cells.dropLast }
          rows := t.rows.map (fun r => { cells := r.cells.dropLast }) }) := by
  refine ⟨?_, ?_, ?_, ?_⟩
  · intro h
    rw [deleteColumn, if_pos (by omega)]
  · intro h
    rw [deleteRow, if_pos (by simp [h])]
  · intro h
    rw [deleteRow, if_neg (by simpa using h)]
  · intro h
    rw [deleteColumn, if_neg (by omega)]
    have hmap : t.rows.map (fun r =>
          if 0 < r.cells.length then ({ cells := r.cells.dropLast } : TableRow) else r)
        = t.rows.map (fun r => ({ cells := r.cells.dropLast } : TableRow)) := by
      apply List.map_congr_left
      intro r _
      by_cases hr : 0 < r.cells.length
      · rw [if_pos hr]
      · rw [if_neg hr]
        have : r.cells = [] := by
          cases hc : r.cells with
          | nil => rfl
          | cons a l => rw [hc] at hr; simp at hr
        cases r with
        | mk cells =>
          simp only at this
          rw [this]
          rfl
    rw [hmap]

/-- Concrete instances of claim C5: both refusals and both successful
deletions. -/
theorem c5_delete_boundaries_witness :
    deleteColumn { headers := { cells := [{ content := ['a'] }] }
                   separator := [['-']]
                   rows := []
                   startLine := 0
                   endLine := 1 } = none
    ∧ deleteRow { headers := { cells := [{ content := ['a'] }] }
                  separator := [['-']]
                  rows := []
                  startLine := 0
                  endLine := 1 } = none
    ∧ deleteRow { headers := { cells := [{ content := ['a'] }, { content := ['b'] }] }
                  separator := [['-'], ['-']]
                  rows := [{ cells := [{ content := ['x'] }, { content := ['y'] }] }]
                  startLine := 0
                  endLine := 2 }
        = some { headers := { cells := [{ content := ['a'] }, { content := ['b'] }] }
                 separator := [['-'], ['-']]
                 rows := ([{ cells := [{ content := ['x'] }, { content := ['y'] }] }]
                   : List TableRow).dropLast
                 startLine := 0
                 endLine := 2 }
    ∧ deleteColumn { headers := { cells := [{ content := ['a'] }, { content := ['b'] }] }
                     separator := [['-'], ['-']]
                     rows := [{ cells := [{ content := ['x'] }, { content := ['y'] }] }]
                     startLine := 0
                     endLine := 2 }
        = some { headers := { cells := ([{ content := ['a'] }, { content := ['b'] }]
                   : List TableCell).dropLast }
                 separator := [['-'], ['-']]
                 rows := ([{ cells := [{ content := ['x'] }, { content := ['y'] }] }]
                   : List TableRow).map (fun r => { cells := r.cells.dropLast })
                 startLine := 0
                 endLine := 2 } :=
  ⟨(c5_delete_boundaries _).1 (by decide),
   (c5_delete_boundaries _).2.1 (by decide),
   (c5_delete_boundaries _).2.2.1 (by decide),
   (c5_delete_boundaries _).2.2.2 (by decide)⟩

/-! ## Claim C6: cursor-to-column mapping
(`TableManager.getCursorColumnIndex`) -/

/-- The pipe-position scan of `getCursorColumnIndex`: the indices of all
`|` characters of the line, in order, starting at offset `i`. -/
def pipePositionsAux (l : Str) (i : Nat) : List Nat :=
  match l with
  | [] => []
  | c :: rest =>
    if c = '|' then i :: pipePositionsAux rest (i + 1)
    else pipePositionsAux rest (i + 1)

/-- All pipe positions of a line. -/
def pipePositions (l : Str) : List Nat := pipePositionsAux l 0

/-- The interval loop of `getCursorColumnIndex`: the first `i` with
`p[i] < ch ≤ p[i+1]`, scanning consecutive pipe pairs. -/
def findIntervalAux : List Nat → Nat → Nat → Option Nat
  | a :: b :: rest, ch, i =>
    if a < ch ∧ ch ≤ b then some i else findIntervalAux (b :: rest) ch (i + 1)
  | _, _, _ => none

/-- `TableManager.getCursorColumnIndex` with the resolved target line
and the table's header count abstracted: bail out without a pipe or with
fewer than two pipes, otherwise scan the pipe intervals, fall back to
column 0 before the first pipe and to the last column after the last
pipe, and finally validate the computed column against the header
count, returning -1 when it is out of range. -/
def getCursorColumnIndex (numCols : Nat) (line : Str) (ch : Nat) : Int :=
  if ¬ line.contains '|' then -1
  else
    let p := pipePositions line
    if p.length < 2 then -1
    else
      let ci : Int :=
        match findIntervalAux p ch 0 with
        | some i => (i : Int)
        | none =>
          if ch ≤ p.headD 0 then 0
          else if p.getLastD 0 < ch then (p.length : Int) - 2
          else -1
      if 0 ≤ ci ∧ ci < (numCols : Int) then ci else -1

theorem pipePositionsAux_lb (l : Str) (i : Nat) :
    ∀ x ∈ pipePositionsAux l i, i ≤ x := by
  induction l generalizing i with
  | nil => simp [pipePositionsAux]
  | cons c rest ih =>
    intro x hx
    rw [pipePositionsAux] at hx
    by_cases hc : c = '|'
    · rw [if_pos hc] at hx
      rcases List.mem_cons.1 hx with rfl | hx2
      · exact le_refl x
      · exact le_trans (by omega) (ih (i + 1) x hx2)
    · rw [if_neg hc] at hx
      exact le_trans (by omega) (ih (i + 1) x hx)

theorem pipePositionsAux_sorted (l : Str) (i : Nat) :
    List.Pairwise (· < ·) (pipePositionsAux l i) := by
  induction l generalizing i with
  | nil => simp [pipePositionsAux]
  | cons c rest ih =>
    rw [pipePositionsAux]
    by_cases hc : c = '|'
    · rw [if_pos hc]
      exact List.Pairwise.cons
        (fun x hx => lt_of_lt_of_le (by omega) (pipePositionsAux_lb rest (i + 1) x hx))
        (ih (i + 1))
    · rw [if_neg hc]
      exact ih (i + 1)

theorem pipePositionsAux_nil_of_no_pipe (l : Str) (i : Nat) (h : ('|' : Char) ∉ l) :
    pipePositionsAux l i = [] := by
  induction l generalizing i with
  | nil => rfl
  | cons c rest ih =>
    rw [pipePositionsAux]
    rw [if_neg (by rintro rfl; exact h (List.mem_cons_self _ _))]
    exact ih (i + 1) (fun hm => h (List.mem_cons_of_mem _ hm))

theorem findIntervalAux_spec (p : List Nat) (ch : Nat) :
    ∀ k i, List.Pairwise (· < ·) p → (hi : i + 1 < p.length) →
    p[i] < ch → ch ≤ p[i + 1] → findIntervalAux p ch k = some (k + i) := by
  induction p with
  | nil =>
    intro k i _ hi
    simp at hi
  | cons a rest ih =>
    intro k i hsort hi h1 h2
    cases rest with
    | nil => simp at hi
    | cons b rest2 =>
      cases i with
      | zero =>
        simp at h1 h2
        rw [findIntervalAux, if_pos ⟨h1, h2⟩]
        simp
      | succ j =>
        have hb : b ≤ (a :: b :: rest2)[j + 1] := by
          by_cases hj : j = 0
          · subst hj
            exact le_refl _
          · have hjlen : j + 1 < (a :: b :: rest2).length := by
              simp at hi ⊢
              omega
            exact le_of_lt ((List.pairwise_iff_getElem.1 hsort) 1 (j + 1)
              (by simp) hjlen (by omega))
        have hnot : ¬(a < ch ∧ ch ≤ b) := by
          intro hcontra
          have : ch ≤ (a :: b :: rest2)[j + 1] := le_trans hcontra.2 hb
          omega
        rw [findIntervalAux, if_neg hnot]
        have hres := ih (k + 1) j (hsort.sublist (List.sublist_cons_self _ _))
          (by simp at hi ⊢; omega) (by simpa using h1) (by simpa using h2)
        rw [hres]
        congr 1
        omega

theorem findIntervalAux_none_le (p : List Nat) (ch : Nat) :
    ∀ k, (∀ x ∈ p, ch ≤ x) → findIntervalAux p ch k = none := by
  induction p with
  | nil => intro k _; rfl
  | cons a rest ih =>
    intro k h
    cases rest with
    | nil => rfl
    | cons b rest2 =>
      rw [findIntervalAux, if_neg (by
        intro hcontra
        exact absurd (h a (List.mem_cons_self _ _)) (by omega))]
      exact ih k.succ (fun x hx => h x (List.mem_cons_of_mem _ hx))

theorem findIntervalAux_none_gt (p : List Nat) (ch : Nat) :
    ∀ k, (∀ x ∈ p, x < ch) → findIntervalAux p ch k = none := by
  induction p with
  | nil => intro k _; rfl
  | cons a rest ih =>
    intro k h
    cases rest with
    | nil => rfl
    | cons b rest2 =>
      rw [findIntervalAux, if_neg (by
        intro hcontra
        exact absurd (h b (List.mem_cons_of_mem _ (List.mem_cons_self _ _))) (by omega))]
      exact ih k.succ (fun x hx => h x (List.mem_cons_of_mem _ hx))

theorem sorted_headD_le (p : List Nat) (hs : List.Pairwise (· < ·) p) :
    ∀ x ∈ p, p.headD 0 ≤ x := by
  cases p with
  | nil => simp
  | cons a rest =>
    intro x hx
    rcases List.mem_cons.1 hx with rfl | hx2
    · exact le_refl x
    · exact le_of_lt (List.rel_of_pairwise_cons hs hx2)

theorem sorted_le_getLastD (p : List Nat) (hs : List.Pairwise (· < ·) p) :
    ∀ x ∈ p, x ≤ p.getLastD 0 := by
  induction p with
  | nil => simp
  | cons a rest ih =>
    intro x hx
    cases rest with
    | nil =>
      simp at hx
      simp [hx]
    | cons b rest2 =>
      have hlast : (a :: b :: rest2).getLastD 0 = (b :: rest2).getLastD 0 := rfl
      rcases List.mem_cons.1 hx with rfl | hx2
      · rw [hlast]
        exact le_of_lt (lt_of_lt_of_le (List.rel_of_pairwise_cons hs (List.mem_cons_self _ _))
          (ih hs.of_cons b (List.mem_cons_self _ _)))
      · rw [hlast]
        exact ih hs.of_cons x hx2

theorem contains_of_pipePositions (line : Str) (h : pipePositions line ≠ []) :
    line.contains '|' = true := by
  by_contra hc
  apply h
  apply pipePositionsAux_nil_of_no_pipe
  intro hm
  exact hc (List.elem_iff.2 hm)

/-- Claim C6 (amended): with `p` the pipe positions of the line — fewer
than two pipes gives -1; `ch` in the half-open interval
`(p[i], p[i+1]]` gives column `i`; `ch` at or before the first pipe
gives column 0; `ch` after the last pipe gives column `p.length - 2` —
in each case subject to the final validation against the table's header
count: a computed column `≥ numCols` (or a header count of 0) yields -1
instead. -/
theorem c6_cursor_column_mapping (numCols : Nat) (line : Str) (ch : Nat) :
    ((pipePositions line).length < 2 → getCursorColumnIndex numCols line ch = -1)
    ∧ (∀ i, (hi : i + 1 < (pipePositions line).length) →
        (pipePositions line)[i] < ch → ch ≤ (pipePositions line)[i + 1] →
        getCursorColumnIndex numCols line ch = if i < numCols then (i : Int) else -1)
    ∧ (2 ≤ (pipePositions line).length → ch ≤ (pipePositions line).headD 0 →
        getCursorColumnIndex numCols line ch = if 0 < numCols then 0 else -1)
    ∧ (2 ≤ (pipePositions line).length → (pipePositions line).getLastD 0 < ch →
        getCursorColumnIndex numCols line ch
          = if (pipePositions line).length - 2 < numCols
            then ((pipePositions line).length : Int) - 2 else -1) := by
  have hsort : List.Pairwise (· < ·) (pipePositions line) :=
    pipePositionsAux_sorted line 0
  refine ⟨?_, ?_, ?_, ?_⟩
  · intro hlen
    rw [getCursorColumnIndex]
    by_cases hcont : line.contains '|' = true
    · rw [if_neg (not_not_intro hcont)]
      simp only
      rw [if_pos hlen]
    · rw [if_pos hcont]
  · intro i hi h1 h2
    have hne : pipePositions line ≠ [] := by
      intro hcontra
      rw [hcontra] at hi
      simp at hi
    have hcont := contains_of_pipePositions line hne
    rw [getCursorColumnIndex, if_neg (not_not_intro hcont)]
    simp only
    rw [if_neg (by omega)]
    rw [findIntervalAux_spec (pipePositions line) ch 0 i hsort hi h1 h2]
    simp only [Nat.zero_add]
    by_cases hv : i < numCols
    · rw [if_pos ⟨by positivity, by exact_mod_cast hv⟩, if_pos hv]
    · rw [if_neg (by
        intro hcontra
        exact hv (by exact_mod_cast hcontra.2)), if_neg hv]
  · intro hlen hch
    have hne : pipePositions line ≠ [] := by
      intro hcontra
      rw [hcontra] at hlen
      simp at hlen
    have hcont := contains_of_pipePositions line hne
    rw [getCursorColumnIndex, if_neg (not_not_intro hcont)]
    simp only
    rw [if_neg (by omega)]
    rw [findIntervalAux_none_le (pipePositions line) ch 0
      (fun x hx => le_trans hch (sorted_headD_le _ hsort x hx))]
    simp only
    rw [if_pos hch]
    by_cases hv : 0 < numCols
    · rw [if_pos ⟨le_refl 0, by exact_mod_cast hv⟩, if_pos hv]
    · rw [if_neg (by
        intro hcontra
        exact hv (by exact_mod_cast hcontra.2)), if_neg hv]
  · intro hlen hch
    have hne : pipePositions line ≠ [] := by
      intro hcontra
      rw [hcontra] at hlen
      simp at hlen
    have hcont := contains_of_pipePositions line hne
    rw [getCursorColumnIndex, if_neg (not_not_intro hcont)]
    simp only
    rw [if_neg (by omega)]
    rw [findIntervalAux_none_gt (pipePositions line) ch 0
      (fun x hx => lt_of_le_of_lt (sorted_le_getLastD _ hsort x hx) hch)]
    simp only
    have hhead : ¬ ch ≤ (pipePositions line).headD 0 := by
      have hmem : (pipePositions line).headD 0 ∈ pipePositions line := by
        cases hp : pipePositions line with
        | nil => exact absurd hp hne
        | cons a rest => simp
      have := sorted_le_getLastD _ hsort _ hmem
      omega
    rw [if_neg hhead, if_pos hch]
    by_cases hv : (pipePositions line).length - 2 < numCols
    · rw [if_pos ⟨by omega, by omega⟩, if_pos hv]
    · rw [if_neg (by
        intro hcontra
        exact hv (by omega)), if_neg hv]

/-- The claim as frozen is refuted by the final header-count validation:
with one header column and the line `"| a | b |"` (pipes at 0, 4, 8),
the offset 6 lies in the interval `(4, 8]`, so the claim predicts column
1, but the function returns -1. -/
theorem c6_counterexample :
    pipePositions ['|', ' ', 'a', ' ', '|', ' ', 'b', ' ', '|'] = [0, 4, 8]
    ∧ ((4 : Nat) < 6 ∧ (6 : Nat) ≤ 8)
    ∧ getCursorColumnIndex 1 ['|', ' ', 'a', ' ', '|', ' ', 'b', ' ', '|'] 6 ≠ 1 :=
  ⟨by decide, by decide, by decide⟩

/-- Concrete instance of claim C6 (amended): same line, two header
columns, offset 6 maps to column 1. -/
theorem c6_cursor_column_mapping_witness :
    getCursorColumnIndex 2 ['|', ' ', 'a', ' ', '|', ' ', 'b', ' ', '|'] 6
      = if 1 < 2 then (1 : Int) else -1 :=
  (c6_cursor_column_mapping 2 ['|', ' ', 'a', ' ', '|', ' ', 'b', ' ', '|'] 6).2.1 1
    (by decide) (by decide) (by decide)

/-! ## Claim C8: validator warnings (`TableValidator.validateTable`,
`TableValidator.validateTableData`)

Validation messages are modelled as structured data rather than the
formatted strings of the source; each constructor corresponds to one
`push` site. -/

inductive VMsg where
  | mustHaveHeaders : VMsg
  | separatorMismatch : VMsg
  | rowColumnMismatch (rowIndex got expected : Nat) : VMsg
  | emptyHeader (index : Nat) : VMsg
  | invalidSeparator (index : Nat) (tok : Str) : VMsg
  | mustHaveHeaderData : VMsg
  | duplicateHeader (header : Str) : VMsg
  | rowTooManyColumns (rowIndex got expected : Nat) : VMsg
  | rowTooFewColumns (rowIndex got expected : Nat) : VMsg
deriving DecidableEq, Repr

structure ValidationResult where
  isValid : Bool
  errors : List VMsg
  warnings : List VMsg
deriving DecidableEq, Repr

/-- The per-row column-count warnings of `validateTable`. -/
def rowMismatchWarnings (expected : Nat) : List TableRow → Nat → List VMsg
  | [], _ => []
  | r :: rest, i =>
    (if r.cells.length ≠ expected then [VMsg.rowColumnMismatch i r.cells.length expected]
     else [])
      ++ rowMismatchWarnings expected rest (i + 1)

/-- The empty-header warnings of `validateTable`. -/
def emptyHeaderWarnings : List TableCell → Nat → List VMsg
  | [], _ => []
  | c :: rest, i =>
    (if trim c.content = [] then [VMsg.emptyHeader i] else [])
      ++ emptyHeaderWarnings rest (i + 1)

/-- The separator-format errors of `validateTable`. -/
def invalidSeparatorErrors : List Str → Nat → List VMsg
  | [], _ => []
  | tok :: rest, i =>
    (if sepTokenValid tok = false then [VMsg.invalidSeparator i tok] else [])
      ++ invalidSeparatorErrors rest (i + 1)

/-- `TableValidator.validateTable`: errors for missing headers, a
separator-length mismatch and malformed separator tokens (each clearing
`isValid`); warnings for per-row column-count mismatches and empty
header cells (leaving `isValid` untouched). -/
def validateTable (t : ParsedTable) : ValidationResult :=
  let expected := t.headers.cells.length
  let errs1 := if t.headers.cells.length = 0 then [VMsg.mustHaveHeaders] else []
  let errs2 := if t.separator.length ≠ expected then [VMsg.separatorMismatch] else []
  let errs3 := invalidSeparatorErrors t.separator 0
  { isValid := errs1.isEmpty && errs2.isEmpty && errs3.isEmpty
    errors := errs1 ++ errs2 ++ errs3
    warnings := rowMismatchWarnings expected t.rows 0 ++ emptyHeaderWarnings t.headers.cells 0 }

/-- The lower-cased trimmed key under which `validateTableData` detects
duplicate headers. -/
def headerKey (h : Str) : Str := (trim h).map Char.toLower

/-- The duplicate-header and empty-header warning loop of
`validateTableData`: headers are walked with the set of already-seen
keys, a repeated key warns, and every key is then added. -/
def dupEmptyWarnings (seen : List Str) : List Str → Nat → List VMsg
  | [], _ => []
  | h :: rest, i =>
    (if headerKey h ∈ seen then [VMsg.duplicateHeader h] else [])
      ++ (if trim h = [] then [VMsg.emptyHeader i] else [])
      ++ dupEmptyWarnings (headerKey h :: seen) rest (i + 1)

/-- The row-size warnings of `validateTableData`. -/
def rowSizeWarnings (expected : Nat) : List (List Str) → Nat → List VMsg
  | [], _ => []
  | r :: rest, i =>
    (if expected < r.length then [VMsg.rowTooManyColumns i r.length expected]
     else if r.length < expected then [VMsg.rowTooFewColumns i r.length expected]
     else [])
      ++ rowSizeWarnings expected rest (i + 1)

/-- `TableValidator.validateTableData`: an error for an empty header
array, duplicate/empty-header warnings, and row-size warnings.  (The
source's `!rows` and non-array-row branches guard against `null` and
non-array values, which the typed model cannot represent.) -/
def validateTableData (headers : List Str) (rows : List (List Str)) : ValidationResult :=
  let errs1 := if headers.length = 0 then [VMsg.mustHaveHeaderData] else []
  { isValid := errs1.isEmpty
    errors := errs1
    warnings := dupEmptyWarnings [] headers 0 ++ rowSizeWarnings headers.length rows 0 }

theorem invalidSeparatorErrors_nil_iff (ts : List Str) :
    ∀ i, invalidSeparatorErrors ts i = [] ↔ ∀ tok ∈ ts, sepTokenValid tok = true := by
  induction ts with
  | nil => simp [invalidSeparatorErrors]
  | cons tok rest ih =>
    intro i
    rw [invalidSeparatorErrors]
    by_cases hv : sepTokenValid tok = false
    · simp [hv]
    · rw [if_neg hv]
      rw [Bool.not_eq_false] at hv
      simp [hv, ih (i + 1)]

/-- A later header whose key is already among the seen keys always
produces a duplicate warning. -/
theorem dup_of_seen (hs : List Str) :
    ∀ seen i0 j, (hj : j < hs.length) → headerKey (hs.getD j []) ∈ seen →
    ∃ h, VMsg.duplicateHeader h ∈ dupEmptyWarnings seen hs i0 := by
  induction hs with
  | nil =>
    intro seen i0 j hj
    simp at hj
  | cons h rest ih =>
    intro seen i0 j hj hkey
    cases j with
    | zero =>
      refine ⟨h, ?_⟩
      rw [dupEmptyWarnings]
      simp only [List.getD_cons_zero] at hkey
      rw [if_pos hkey]
      simp
    | succ j2 =>
      simp only [List.getD_cons_succ] at hkey
      obtain ⟨h2, hh2⟩ := ih (headerKey h :: seen) (i0 + 1) j2 (by simpa using hj)
        (List.mem_cons_of_mem _ hkey)
      refine ⟨h2, ?_⟩
      rw [dupEmptyWarnings]
      simp [hh2]

/-- Two positions with the same key always produce a duplicate warning. -/
theorem dup_of_pair (hs : List Str) :
    ∀ seen i0 i j, i < j → (hj : j < hs.length) →
    headerKey (hs.getD i []) = headerKey (hs.getD j []) →
    ∃ h, VMsg.duplicateHeader h ∈ dupEmptyWarnings seen hs i0 := by
  induction hs with
  | nil =>
    intro seen i0 i j hij hj
    simp at hj
  | cons h rest ih =>
    intro seen i0 i j hij hj hkey
    cases i with
    | zero =>
      cases j with
      | zero => omega
      | succ j2 =>
        simp only [List.getD_cons_zero, List.getD_cons_succ] at hkey
        obtain ⟨h2, hh2⟩ := dup_of_seen rest (headerKey h :: seen) (i0 + 1) j2
          (by simpa using hj) (by rw [← hkey]; exact List.mem_cons_self _ _)
        refine ⟨h2, ?_⟩
        rw [dupEmptyWarnings]
        simp [hh2]
    | succ i2 =>
      cases j with
      | zero => omega
      | succ j2 =>
        simp only [List.getD_cons_succ] at hkey
        obtain ⟨h2, hh2⟩ := ih (headerKey h :: seen) (i0 + 1) i2 j2 (by omega)
          (by simpa using hj) hkey
        refine ⟨h2, ?_⟩
        rw [dupEmptyWarnings]
        simp [hh2]

/-- Claim C8 (amended): the duplicate-header warning is produced by
`validateTableData` (the raw header/row-array validator), not by
`validateTable`: whenever two headers agree after trimming and
lower-casing, `validateTableData` emits a duplicate-header warning.
`validateTable.isValid` is true exactly when the headers are nonempty,
the separator length matches the header count, and every separator
token matches `^:?-+:?$` — warnings never change `isValid`; likewise
`validateTableData.isValid` only reflects the empty-header-array
error. -/
theorem c8_duplicate_header_warning (t : ParsedTable)
    (headers : List Str) (rows : List (List Str)) (i j : Nat)
    (hij : i < j) (hj : j < headers.length)
    (hdup : headerKey (headers.getD i []) = headerKey (headers.getD j [])) :
    (∃ h, VMsg.duplicateHeader h ∈ (validateTableData headers rows).warnings)
    ∧ ((validateTable t).isValid = true ↔
        (t.headers.cells.length ≠ 0
         ∧ t.separator.length = t.headers.cells.length
         ∧ ∀ tok ∈ t.separator, sepTokenValid tok = true))
    ∧ ((validateTableData headers rows).isValid = true ↔ headers.length ≠ 0) := by
  refine ⟨?_, ?_, ?_⟩
  · obtain ⟨h, hh⟩ := dup_of_pair headers [] 0 i j hij hj hdup
    exact ⟨h, by simp [validateTableData, hh]⟩
  · rw [validateTable]
    simp only [Bool.and_eq_true, List.isEmpty_iff]
    constructor
    · rintro ⟨⟨h1, h2⟩, h3⟩
      refine ⟨?_, ?_, (invalidSeparatorErrors_nil_iff t.separator 0).1 h3⟩
      · intro hc
        rw [if_pos hc] at h1
        exact List.cons_ne_nil _ _ h1
      · by_contra hc
        rw [if_pos hc] at h2
        exact List.cons_ne_nil _ _ h2
    · rintro ⟨h1, h2, h3⟩
      exact ⟨⟨by rw [if_neg h1], by rw [if_neg (by omega)]⟩,
        (invalidSeparatorErrors_nil_iff t.separator 0).2 h3⟩
  · rw [validateTableData]
    simp only [List.isEmpty_iff]
    constructor
    · intro h1 hc
      rw [if_pos hc] at h1
      exact List.cons_ne_nil _ _ h1
    · intro h1
      rw [if_neg h1]

/-- The claim as frozen is refuted: `validateTable` itself performs no
duplicate-header check.  On a table with the duplicate headers
`["a", "a"]` its warning list is empty. -/
theorem c8_counterexample :
    headerKey (([['a'], ['a']] : List Str).getD 0 [])
        = headerKey (([['a'], ['a']] : List Str).getD 1 [])
    ∧ (validateTable
        { headers := { cells := [{ content := ['a'] }, { content := ['a'] }] }
          separator := [['-', '-', '-'], ['-', '-', '-']]
          rows := []
          startLine := 0
          endLine := 1 }).warnings = []
    ∧ ¬ ∃ h, VMsg.duplicateHeader h ∈ (validateTable
        { headers := { cells := [{ content := ['a'] }, { content := ['a'] }] }
          separator := [['-', '-', '-'], ['-', '-', '-']]
          rows := []
          startLine := 0
          endLine := 1 }).warnings := by
  refine ⟨by decide, by decide, ?_⟩
  rintro ⟨h, hm⟩
  rw [show (validateTable
      { headers := { cells := [{ content := ['a'] }, { content := ['a'] }] }
        separator := [['-', '-', '-'], ['-', '-', '-']]
        rows := []
        startLine := 0
        endLine := 1 }).warnings = [] from by decide] at hm
  simp at hm

/-- Concrete instance of claim C8 (amended), with the duplicate headers
`["a", "A"]`. -/
theorem c8_duplicate_header_warning_witness :
    (∃ h, VMsg.duplicateHeader h
        ∈ (validateTableData [['a'], ['A']] [[['x']]]).warnings)
    ∧ ((validateTable
          { headers := { cells := [{ content := ['a'] }, { content := ['A'] }] }
            separator := [['-', '-', '-'], ['-', '-', '-']]
            rows := []
            startLine := 0
            endLine := 1 }).isValid = true ↔
        (({ headers := { cells := [{ content := ['a'] }, { content := ['A'] }] }
            separator := [['-', '-', '-'], ['-', '-', '-']]
            rows := []
            startLine := 0
            endLine := 1 } : ParsedTable).headers.cells.length ≠ 0
         ∧ ([['-', '-', '-'], ['-', '-', '-']] : List Str).length = 2
         ∧ ∀ tok ∈ ([['-', '-', '-'], ['-', '-', '-']] : List Str),
             sepTokenValid tok = true))
    ∧ ((validateTableData [['a'], ['A']] [[['x']]]).isValid = true ↔
        ([['a'], ['A']] : List Str).length ≠ 0) :=
  c8_duplicate_header_warning
    { headers := { cells := [{ content := ['a'] }, { content := ['A'] }] }
      separator := [['-', '-', '-'], ['-', '-', '-']]
      rows := []
      startLine := 0
      endLine := 1 }
    [['a'], ['A']] [[['x']]] 0 1 (by decide) (by decide) (by decide)

/-! ## Claim C9: CSV import (`TableManager.convertCSVToTable`,
`TableManager.parseCSVLine`, `TableManager.createMarkdownTableFromData`) -/


/-- The quote-aware CSV field splitter `TableManager.parseCSVLine`:
state `inQ` says whether we are inside quotes, `cur` is the field built
so far; `""` inside quotes is a literal quote, a quote toggles the
state, a comma outside quotes ends the field, every field is trimmed. -/
def parseCSVAux : Bool → Str → Str → List Str
  | _, cur, [] => [trim cur]
  | true, cur, '"' :: '"' :: rest2 => parseCSVAux true (cur ++ ['"']) rest2
  | true, cur, '"' :: rest => parseCSVAux false cur rest
  | false, cur, '"' :: rest => parseCSVAux true cur rest
  | false, cur, ',' :: rest => trim cur :: parseCSVAux false [] rest
  | inQ, cur, c :: rest => parseCSVAux inQ (cur ++ [c]) rest

/-- `TableManager.parseCSVLine`. -/
def parseCSVLine (line : Str) : List Str := parseCSVAux false [] line

/-- `TableManager.createMarkdownTableFromData`: header line, an
all-`---` separator line sized to the headers, then one line per data
row exactly as parsed, joined by newlines with a trailing newline. -/
def createMarkdownTableFromData (headers : List Str) (dataRows : List (List Str)) : Str :=
  joinSep ['\n']
    (mkLine headers
      :: mkLine (headers.map (fun _ => ['-', '-', '-']))
      :: dataRows.map mkLine)
    ++ ['\n']

/-- The lines of the trimmed CSV input. -/
def csvLines (csv : Str) : List Str := splitOnChar '\n' (trim csv)

/-- The parsed header row of the CSV input (its first line). -/
def csvHeaders (csv : Str) : List Str := ((csvLines csv).map parseCSVLine).headD []

/-- The parsed data rows of the CSV input (all remaining lines). -/
def csvDataRows (csv : Str) : List (List Str) := ((csvLines csv).map parseCSVLine).tail

/-- `TableManager.convertCSVToTable`, its text-producing core: trim,
split into lines, refuse fewer than two lines, parse every line with the
quote-aware splitter, emit the markdown table (the editor insertion and
the notices are host-side effects). -/
def convertCSVToTable (csvContent : Str) : Option Str :=
  if (csvLines csvContent).length < 2 then none
  else some (createMarkdownTableFromData (csvHeaders csvContent) (csvDataRows csvContent))

theorem parseCSVAux_ne_nil :
    ∀ (n : Nat) (l : Str), l.length ≤ n → ∀ (inQ : Bool) (cur : Str),
      parseCSVAux inQ cur l ≠ [] := by
  intro n
  induction n with
  | zero =>
    intro l hl inQ cur
    have hnil : l = [] := by
      cases l with
      | nil => rfl
      | cons c rest => simp at hl
    subst hnil
    rw [parseCSVAux.eq_1]
    simp
  | succ n ih =>
    intro l hl inQ cur
    cases l with
    | nil =>
      rw [parseCSVAux.eq_1]
      simp
    | cons c rest =>
      by_cases hq : inQ = true
      · subst hq
        by_cases hc : c = '"'
        · subst hc
          cases rest with
          | nil =>
            rw [parseCSVAux.eq_3 _ _ (by intro r2 h; simp at h)]
            exact ih [] (by simp) false cur
          | cons c2 rest2 =>
            by_cases hc2 : c2 = '"'
            · subst hc2
              rw [parseCSVAux.eq_2]
              exact ih rest2 (by simp at hl; omega) true (cur ++ ['"'])
            · rw [parseCSVAux.eq_3 _ _ (by
                intro r2 h
                injection h with h1 h2
                exact hc2 h1)]
              exact ih (c2 :: rest2) (by simp at hl ⊢; omega) false cur
        · rw [parseCSVAux.eq_6 _ _ _ _
            (by intro r2 ha hb; exact absurd hb hc)
            (by intro ha hb; exact absurd hb hc)
            (by intro ha; simp at ha)
            (by intro ha; simp at ha)]
          exact ih rest (by simp at hl; omega) true (cur ++ [c])
      · have hq2 : inQ = false := by simpa using hq
        subst hq2
        by_cases hc : c = '"'
        · subst hc
          rw [show parseCSVAux false cur ('"' :: rest) = parseCSVAux true cur rest from rfl]
          exact ih rest (by simp at hl; omega) true cur
        · by_cases hcm : c = ','
          · subst hcm
            rw [parseCSVAux.eq_5]
            simp
          · rw [parseCSVAux.eq_6 _ _ _ _
              (by intro r2 ha; simp at ha)
              (by intro ha; simp at ha)
              (by intro ha hb; exact absurd hb hc)
              (by intro ha hb; exact absurd hb hcm)]
            exact ih rest (by simp at hl; omega) false (cur ++ [c])

theorem parseCSVLine_ne_nil (line : Str) : parseCSVLine line ≠ [] :=
  parseCSVAux_ne_nil line.length line (le_refl _) false []

theorem mem_of_trim {s : Str} {x : Char} (h : x ∈ trim s) : x ∈ s := by
  rw [trim, trimR, trimL] at h
  rw [List.mem_reverse] at h
  have h2 := (List.dropWhile_sublist (l := (List.dropWhile isWsChar s).reverse)
    (p := isWsChar)).mem h
  rw [List.mem_reverse] at h2
  exact (List.dropWhile_sublist (l := s) (p := isWsChar)).mem h2

theorem parseCSVAux_mem :
    ∀ (n : Nat) (l : Str), l.length ≤ n → ∀ (inQ : Bool) (cur : Str) (cell : Str) (x : Char),
      cell ∈ parseCSVAux inQ cur l → x ∈ cell → x ∈ cur ∨ x ∈ l := by
  intro n
  induction n with
  | zero =>
    intro l hl inQ cur cell x hcell hx
    have hnil : l = [] := by
      cases l with
      | nil => rfl
      | cons c rest => simp at hl
    subst hnil
    rw [parseCSVAux.eq_1] at hcell
    simp at hcell
    subst hcell
    exact Or.inl (mem_of_trim hx)
  | succ n ih =>
    intro l hl inQ cur cell x hcell hx
    cases l with
    | nil =>
      rw [parseCSVAux.eq_1] at hcell
      simp at hcell
      subst hcell
      exact Or.inl (mem_of_trim hx)
    | cons c rest =>
      by_cases hq : inQ = true
      · subst hq
        by_cases hc : c = '"'
        · subst hc
          cases rest with
          | nil =>
            rw [parseCSVAux.eq_3 _ _ (by intro r2 h; simp at h)] at hcell
            rcases ih [] (by simp) false cur cell x hcell hx with h1 | h1
            · exact Or.inl h1
            · simp at h1
          | cons c2 rest2 =>
            by_cases hc2 : c2 = '"'
            · subst hc2
              rw [parseCSVAux.eq_2] at hcell
              rcases ih rest2 (by simp at hl; omega) true (cur ++ ['"']) cell x hcell hx
                with h1 | h1
              · rcases List.mem_append.1 h1 with h2 | h2
                · exact Or.inl h2
                · simp at h2
                  subst h2
                  exact Or.inr (List.mem_cons_self _ _)
              · exact Or.inr (List.mem_cons_of_mem _ (List.mem_cons_of_mem _ h1))
            · rw [parseCSVAux.eq_3 _ _ (by
                intro r2 h
                injection h with h1 h2
                exact hc2 h1)] at hcell
              rcases ih (c2 :: rest2) (by simp at hl ⊢; omega) false cur cell x hcell hx
                with h1 | h1
              · exact Or.inl h1
              · exact Or.inr (List.mem_cons_of_mem _ h1)
        · rw [parseCSVAux.eq_6 _ _ _ _
            (by intro r2 ha hb; exact absurd hb hc)
            (by intro ha hb; exact absurd hb hc)
            (by intro ha; simp at ha)
            (by intro ha; simp at ha)] at hcell
          rcases ih rest (by simp at hl; omega) true (cur ++ [c]) cell x hcell hx with h1 | h1
          · rcases List.mem_append.1 h1 with h2 | h2
            · exact Or.inl h2
            · simp at h2
              subst h2
              exact Or.inr (List.mem_cons_self _ _)
          · exact Or.inr (List.mem_cons_of_mem _ h1)
      · have hq2 : inQ = false := by simpa using hq
        subst hq2
        by_cases hc : c = '"'
        · subst hc
          rw [show parseCSVAux false cur ('"' :: rest) = parseCSVAux true cur rest
            from rfl] at hcell
          rcases ih rest (by simp at hl; omega) true cur cell x hcell hx with h1 | h1
          · exact Or.inl h1
          · exact Or.inr (List.mem_cons_of_mem _ h1)
        · by_cases hcm : c = ','
          · subst hcm
            rw [parseCSVAux.eq_5] at hcell
            rcases List.mem_cons.1 hcell with rfl | h1
            · exact Or.inl (mem_of_trim hx)
            · rcases ih rest (by simp at hl; omega) false [] cell x h1 hx with h2 | h2
              · simp at h2
              · exact Or.inr (List.mem_cons_of_mem _ h2)
          · rw [parseCSVAux.eq_6 _ _ _ _
              (by intro r2 ha; simp at ha)
              (by intro ha; simp at ha)
              (by intro ha hb; exact absurd hb hc)
              (by intro ha hb; exact absurd hb hcm)] at hcell
            rcases ih rest (by simp at hl; omega) false (cur ++ [c]) cell x hcell hx
              with h1 | h1
            · rcases List.mem_append.1 h1 with h2 | h2
              · exact Or.inl h2
              · simp at h2
                subst h2
                exact Or.inr (List.mem_cons_self _ _)
            · exact Or.inr (List.mem_cons_of_mem _ h1)

theorem parseCSVLine_mem (line : Str) (cell : Str) (x : Char)
    (hcell : cell ∈ parseCSVLine line) (hx : x ∈ cell) : x ∈ line := by
  rcases parseCSVAux_mem line.length line (le_refl _) false [] cell x hcell hx with h | h
  · simp at h
  · exact h

theorem splitOnChar_pieces_no_sep (sep : Char) (s : Str) :
    ∀ p ∈ splitOnChar sep s, sep ∉ p := by
  induction s with
  | nil =>
    intro p hp
    simp [splitOnChar] at hp
    simp [hp]
  | cons c rest ih =>
    intro p hp
    rw [splitOnChar] at hp
    cases hsp : splitOnChar sep rest with
    | nil => exact absurd hsp (splitOnChar_ne_nil _ _)
    | cons f fs =>
      rw [hsp] at hp
      have hp2 : p ∈ (if c = sep then [] :: f :: fs else (c :: f) :: fs) := hp
      by_cases hc : c = sep
      · rw [if_pos hc] at hp2
        rcases List.mem_cons.1 hp2 with rfl | h1
        · simp
        · exact ih p (by rw [hsp]; exact h1)
      · rw [if_neg hc] at hp2
        rcases List.mem_cons.1 hp2 with rfl | h1
        · intro hm
          rcases List.mem_cons.1 hm with h2 | h2
          · exact hc h2.symm
          · exact ih f (by rw [hsp]; exact List.mem_cons_self _ _) h2
        · exact ih p (by rw [hsp]; exact List.mem_cons_of_mem _ h1)

theorem joinSep_append_nil (sep : Str) (ps : List Str) (hne : ps ≠ []) :
    joinSep sep (ps ++ [[]]) = joinSep sep ps ++ sep := by
  induction ps with
  | nil => exact absurd rfl hne
  | cons x rest ih =>
    cases rest with
    | nil => simp [joinSep]
    | cons y rest2 =>
      have h1 : joinSep sep ((x :: y :: rest2) ++ [[]])
          = x ++ sep ++ joinSep sep ((y :: rest2) ++ [[]]) := by
        simp [joinSep]
      rw [h1, ih (by simp)]
      simp [joinSep]

theorem parseTableRow_mkLine_length (cs : List Str) (hne : cs ≠ [])
    (hpipe : ∀ x ∈ cs, ('|' : Char) ∉ x) :
    (parseTableRow (mkLine cs)).cells.length = cs.length := by
  rw [parseTableRow, trim_mkLine, sliceInner_mkLine, pad_join cs hne,
    splitOnChar_joinSep '|' (cs.map pad) (by simpa using hne)
      (by
        intro p hp
        obtain ⟨x, hx, rfl⟩ := List.mem_map.1 hp
        exact pipe_not_mem_pad (hpipe x hx))]
  simp

/-- Claim C9 (amended): for every accepted CSV input (at least two
lines) whose parsed fields contain no pipe, the generated markdown is
the header line, the all-`---` separator line, and one line per parsed
data row emitted exactly as parsed (with the final empty piece produced
by the trailing newline); re-parsing an emitted data row line yields
exactly as many cells as its CSV line parsed to — rows are not padded
or truncated to the header count. -/
theorem c9_csv_rows_not_normalized (csv out : Str)
    (hout : convertCSVToTable csv = some out)
    (hpipe : ∀ line ∈ csvLines csv, ∀ f ∈ parseCSVLine line, ('|' : Char) ∉ f) :
    splitOnChar '\n' out
      = mkLine (csvHeaders csv)
        :: mkLine ((csvHeaders csv).map (fun _ => ['-', '-', '-']))
        :: ((csvDataRows csv).map mkLine ++ [[]])
    ∧ ∀ r ∈ csvDataRows csv, (parseTableRow (mkLine r)).cells.length = r.length := by
  rw [convertCSVToTable] at hout
  by_cases hlen : (csvLines csv).length < 2
  · rw [if_pos hlen] at hout
    cases hout
  · rw [if_neg hlen] at hout
    have houteq : out = createMarkdownTableFromData (csvHeaders csv) (csvDataRows csv) :=
      (Option.some_injective _ hout).symm
    have hnl_line : ∀ line ∈ csvLines csv, ('\n' : Char) ∉ line := fun line hm =>
      splitOnChar_pieces_no_sep '\n' (trim csv) line hm
    have hrow_mem : ∀ r ∈ csvDataRows csv, ∃ l ∈ csvLines csv, r = parseCSVLine l := by
      intro r hr
      rw [csvDataRows] at hr
      cases hL : csvLines csv with
      | nil =>
        rw [hL] at hr
        simp at hr
      | cons l0 ltl =>
        rw [hL] at hr
        simp only [List.map_cons, List.tail_cons] at hr
        obtain ⟨l, hl, rfl⟩ := List.mem_map.1 hr
        exact ⟨l, List.mem_cons_of_mem _ hl, rfl⟩
    have hhdr_fields : ∀ f ∈ csvHeaders csv, ('\n' : Char) ∉ f ∧ ('|' : Char) ∉ f := by
      intro f hf
      rw [csvHeaders] at hf
      cases hL : csvLines csv with
      | nil =>
        rw [hL] at hf
        simp at hf
      | cons l0 ltl =>
        rw [hL] at hf
        simp only [List.map_cons, List.headD_cons] at hf
        have hl0 : l0 ∈ csvLines csv := by rw [hL]; exact List.mem_cons_self _ _
        constructor
        · intro hx
          exact hnl_line l0 hl0 (parseCSVLine_mem l0 f '\n' hf hx)
        · exact hpipe l0 hl0 f hf
    have hrow_fields : ∀ r ∈ csvDataRows csv, ∀ f ∈ r,
        ('\n' : Char) ∉ f ∧ ('|' : Char) ∉ f := by
      intro r hr f hf
      obtain ⟨l, hl, rfl⟩ := hrow_mem r hr
      constructor
      · intro hx
        exact hnl_line l hl (parseCSVLine_mem l f '\n' hf hx)
      · exact hpipe l hl f hf
    constructor
    · rw [houteq, createMarkdownTableFromData,
        ← joinSep_append_nil ['\n'] _ (by simp),
        splitOnChar_joinSep '\n' _ (by simp)
          (by
            intro p hp
            rcases List.mem_append.1 hp with hp1 | hp1
            · rcases List.mem_cons.1 hp1 with rfl | hp2
              · exact nl_not_mem_mkLine _ (fun x hx => (hhdr_fields x hx).1)
              · rcases List.mem_cons.1 hp2 with rfl | hp3
                · apply nl_not_mem_mkLine
                  intro x hx
                  obtain ⟨y, hy, rfl⟩ := List.mem_map.1 hx
                  decide
                · obtain ⟨r, hr, rfl⟩ := List.mem_map.1 hp3
                  exact nl_not_mem_mkLine _ (fun x hx => (hrow_fields r hr x hx).1)
            · simp at hp1
              subst hp1
              simp)]
      simp
    · intro r hr
      obtain ⟨l, hl, hrl⟩ := hrow_mem r hr
      exact parseTableRow_mkLine_length r (by rw [hrl]; exact parseCSVLine_ne_nil l)
        (fun x hx => (hrow_fields r hr x hx).2)

/-- The claim as frozen is refuted: `createMarkdownTableFromData`
performs no padding or truncation.  The CSV input `"a,b\n1"` has two
header fields, but its only data row is emitted as `"| 1 |"`, whose
re-parse has one cell, not two. -/
theorem c9_counterexample :
    (csvHeaders ['a', ',', 'b', '\n', '1']).length = 2
    ∧ csvDataRows ['a', ',', 'b', '\n', '1'] = [[['1']]]
    ∧ convertCSVToTable ['a', ',', 'b', '\n', '1']
        = some (createMarkdownTableFromData [['a'], ['b']] [[['1']]])
    ∧ (splitOnChar '\n'
        (createMarkdownTableFromData [['a'], ['b']] [[['1']]])).getD 2 []
        = mkLine [['1']]
    ∧ (parseTableRow (mkLine [['1']])).cells.length
        ≠ (csvHeaders ['a', ',', 'b', '\n', '1']).length :=
  ⟨by decide, by decide, by decide, by decide, by decide⟩

/-- Concrete instance of claim C9 (amended), on the CSV input
`"a,b\n1"`: the single data row keeps its single parsed cell. -/
theorem c9_csv_rows_not_normalized_witness :
    (splitOnChar '\n' (createMarkdownTableFromData [['a'], ['b']] [[['1']]])
      = mkLine (csvHeaders ['a', ',', 'b', '\n', '1'])
        :: mkLine ((csvHeaders ['a', ',', 'b', '\n', '1']).map (fun _ => ['-', '-', '-']))
        :: ((csvDataRows ['a', ',', 'b', '\n', '1']).map mkLine ++ [[]]))
    ∧ ∀ r ∈ csvDataRows ['a', ',', 'b', '\n', '1'],
        (parseTableRow (mkLine r)).cells.length = r.length :=
  c9_csv_rows_not_normalized ['a', ',', 'b', '\n', '1']
    (createMarkdownTableFromData [['a'], ['b']] [[['1']]])
    (by decide) (by decide)

/-! ## Claim C7: cell color application (`TableManager.applyCellColor`)

The four cleaning regexes of `applyCellColor` are modelled by scanning
matchers: each one recognizes, at the start of a string, one
occurrence of its wrapper pattern and returns the captured inner text
(the regex group `([^<]*)`) and the remainder after the match;
`replaceScan` then walks the string replacing every leftmost match, as
JavaScript `String.replace` with a global regex does.  The attribute
parts `[^>]*`/`[^"]*` are matched by a first-occurrence scan, which
agrees with the regex engine whenever the attribute literal occurs once
between the delimiters — in particular on every string these theorems
touch. -/

def litDivOpen : Str := ['<', 'd', 'i', 'v']

def litClassCellBg : Str :=
  ['c', 'l', 'a', 's', 's', '=', '"', 'c', 'e', 'l', 'l', '-', 'b', 'g', '-']

def litDivClose : Str := ['<', '/', 'd', 'i', 'v', '>']

def litTdOpen : Str := ['<', 't', 'd']

def litTdClose : Str := ['<', '/', 't', 'd', '>']

def litSpanOpen : Str := ['<', 's', 'p', 'a', 'n']

def litSpanClose : Str := ['<', '/', 's', 'p', 'a', 'n', '>']

def litMarkOpen : Str := ['<', 'm', 'a', 'r', 'k']

def litMarkClose : Str := ['<', '/', 'm', 'a', 'r', 'k', '>']

def litStyleQ : Str := ['s', 't', 'y', 'l', 'e', '=', '"']

def litBgColor : Str :=
  ['b', 'a', 'c', 'k', 'g', 'r', 'o', 'u', 'n', 'd', '-', 'c', 'o', 'l', 'o', 'r', ':']

/-- Scan forward over characters satisfying `ok` until the literal
`lit` starts; return the remainder after the literal. -/
def findLitWithin (lit : Str) (ok : Char → Bool) : Str → Option Str
  | [] => none
  | c :: rest =>
    if lit.isPrefixOf (c :: rest) then some ((c :: rest).drop lit.length)
    else if ok c then findLitWithin lit ok rest
    else none

/-- One match of `<div[^>]*class="cell-bg-[^"]*"[^>]*>([^<]*)<\/div>` at
the start of the string. -/
def matchDivAt (s : Str) : Option (Str × Str) :=
  if litDivOpen.isPrefixOf s then
    match findLitWithin litClassCellBg (fun c => c != '>') (s.drop 4) with
    | none => none
    | some s1 =>
      let h := s1.takeWhile (fun c => c != '"')
      match s1.drop h.length with
      | '"' :: s3 =>
        let a := s3.takeWhile (fun c => c != '>')
        match s3.drop a.length with
        | '>' :: s5 =>
          let cap := s5.takeWhile (fun c => c != '<')
          let s6 := s5.drop cap.length
          if litDivClose.isPrefixOf s6 then some (cap, s6.drop 6) else none
        | _ => none
      | _ => none
  else none

/-- One match of
`<td[^>]*style="[^"]*background-color:[^"]*"[^>]*>([^<]*)<\/td>` at the
start of the string. -/
def matchTdAt (s : Str) : Option (Str × Str) :=
  if litTdOpen.isPrefixOf s then
    match findLitWithin litStyleQ (fun c => c != '>') (s.drop 3) with
    | none => none
    | some s1 =>
      match findLitWithin litBgColor (fun c => c != '"') s1 with
      | none => none
      | some s2 =>
        let b := s2.takeWhile (fun c => c != '"')
        match s2.drop b.length with
        | '"' :: s3 =>
          let a := s3.takeWhile (fun c => c != '>')
          match s3.drop a.length with
          | '>' :: s5 =>
            let cap := s5.takeWhile (fun c => c != '<')
            let s6 := s5.drop cap.length
            if litTdClose.isPrefixOf s6 then some (cap, s6.drop 5) else none
          | _ => none
        | _ => none
  else none

/-- One match of the span variant of the same pattern. -/
def matchSpanAt (s : Str) : Option (Str × Str) :=
  if litSpanOpen.isPrefixOf s then
    match findLitWithin litStyleQ (fun c => c != '>') (s.drop 5) with
    | none => none
    | some s1 =>
      match findLitWithin litBgColor (fun c => c != '"') s1 with
      | none => none
      | some s2 =>
        let b := s2.takeWhile (fun c => c != '"')
        match s2.drop b.length with
        | '"' :: s3 =>
          let a := s3.takeWhile (fun c => c != '>')
          match s3.drop a.length with
          | '>' :: s5 =>
            let cap := s5.takeWhile (fun c => c != '<')
            let s6 := s5.drop cap.length
            if litSpanClose.isPrefixOf s6 then some (cap, s6.drop 7) else none
          | _ => none
        | _ => none
  else none

/-- One match of `<mark[^>]*>([^<]*)<\/mark>` at the start of the
string. -/
def matchMarkAt (s : Str) : Option (Str × Str) :=
  if litMarkOpen.isPrefixOf s then
    let a := (s.drop 5).takeWhile (fun c => c != '>')
    match (s.drop 5).drop a.length with
    | '>' :: s5 =>
      let cap := s5.takeWhile (fun c => c != '<')
      let s6 := s5.drop cap.length
      if litMarkClose.isPrefixOf s6 then some (cap, s6.drop 7) else none
    | _ => none
  else none

/-- The global-replace scan of JavaScript `String.replace(regex, '$1')`:
at each position try the matcher; on a match emit the capture and
continue after the match (replacements are not rescanned), otherwise
keep the character.  The fuel is the string length; every match
consumes at least one character. -/
def replaceScan (m : Str → Option (Str × Str)) : Nat → Str → Str
  | 0, s => s
  | _ + 1, [] => []
  | fuel + 1, c :: rest =>
    match m (c :: rest) with
    | some (cap, after) => cap ++ replaceScan m fuel after
    | none => c :: replaceScan m fuel rest

/-- Replace every occurrence recognized by `m`. -/
def replaceAll (m : Str → Option (Str × Str)) (s : Str) : Str :=
  replaceScan m s.length s

/-- The cleaning step of `applyCellColor`: the four regex replacements
applied in source order (td, span, mark, div). -/
def cleanCellContent (s : Str) : Str :=
  replaceAll matchDivAt (replaceAll matchMarkAt (replaceAll matchSpanAt (replaceAll matchTdAt s)))

/-- JavaScript `color.replace('#', '')`: remove the first `#`. -/
def removeFirstHash : Str → Str
  | [] => []
  | c :: rest => if c = '#' then rest else c :: removeFirstHash rest

/-- The character class `[a-zA-Z0-9]` of `getColorClass`. -/
def isAlnumChar (c : Char) : Bool :=
  ('a' ≤ c && c ≤ 'z') || ('A' ≤ c && c ≤ 'Z') || ('0' ≤ c && c ≤ '9')

/-- `TableManager.getColorClass`: `cell-bg-` followed by the color with
its first `#` removed and every non-alphanumeric character dropped. -/
def getColorClass (color : Str) : Str :=
  ['c', 'e', 'l', 'l', '-', 'b', 'g', '-'] ++ (removeFirstHash color).filter isAlnumChar

/-- The `&nbsp;` entity substituted for fully empty content. -/
def nbspEnt : Str := ['&', 'n', 'b', 's', 'p', ';']

/-- `TableManager.applyCellColor` on the cell's content: strip any
previously applied wrapper, then, for a non-empty color, wrap the
content (replaced by `&nbsp;` when its trim is empty) in
`<div class="cell-bg-...">...</div>`; for an empty color leave the
cleaned content unwrapped.  The stylesheet injection `addColorCSS` is a
DOM side effect outside the model. -/
def applyCellColor (cell color : Str) : Str :=
  let cleaned := cleanCellContent cell
  if color ≠ [] then
    let colorClass := getColorClass color
    let contentToWrap := if trim cleaned = [] then nbspEnt else cleaned
    ['<', 'd', 'i', 'v', ' ', 'c', 'l', 'a', 's', 's', '=', '"'] ++ colorClass
      ++ ['"', '>'] ++ contentToWrap ++ ['<', '/', 'd', 'i', 'v', '>']
  else cleaned

/-- The canonical shape of a wrapped cell produced by
`applyCellColor`. -/
def wrapDiv (H X : Str) : Str :=
  ['<', 'd', 'i', 'v', ' ', 'c', 'l', 'a', 's', 's', '=', '"',
   'c', 'e', 'l', 'l', '-', 'b', 'g', '-']
    ++ H ++ ('"' :: '>' :: (X ++ litDivClose))

theorem matchTdAt_open {s : Str} (h : matchTdAt s ≠ none) :
    litTdOpen.isPrefixOf s = true := by
  by_contra hc
  rw [Bool.not_eq_true] at hc
  rw [matchTdAt, if_neg (by simp [hc])] at h
  exact h rfl

theorem matchSpanAt_open {s : Str} (h : matchSpanAt s ≠ none) :
    litSpanOpen.isPrefixOf s = true := by
  by_contra hc
  rw [Bool.not_eq_true] at hc
  rw [matchSpanAt, if_neg (by simp [hc])] at h
  exact h rfl

theorem matchMarkAt_open {s : Str} (h : matchMarkAt s ≠ none) :
    litMarkOpen.isPrefixOf s = true := by
  by_contra hc
  rw [Bool.not_eq_true] at hc
  rw [matchMarkAt, if_neg (by simp [hc])] at h
  exact h rfl

theorem prefix_cons2 {a b : Char} {lit : Str} {s : Str}
    (h : (a :: b :: lit).isPrefixOf s = true) : ∃ tl, s = a :: b :: tl := by
  rw [List.isPrefixOf_iff_prefix] at h
  obtain ⟨t, ht⟩ := h
  exact ⟨lit ++ t, by rw [← ht]; simp⟩

/-- No adjacent occurrence of the two-character sequence `a b`. -/
def noSeq (a b : Char) : Str → Bool
  | c :: d :: rest => if c = a ∧ d = b then false else noSeq a b (d :: rest)
  | _ => true

theorem noSeq_tail {a b c : Char} {rest : Str} (h : noSeq a b (c :: rest) = true) :
    noSeq a b rest = true := by
  cases rest with
  | nil => rfl
  | cons d r =>
    rw [noSeq] at h
    by_cases hcd : c = a ∧ d = b
    · rw [if_pos hcd] at h
      cases h
    · rw [if_neg hcd] at h
      exact h

theorem noSeq_head {a b c d : Char} {rest : Str}
    (h : noSeq a b (c :: d :: rest) = true) : ¬(c = a ∧ d = b) := by
  intro hcd
  rw [noSeq, if_pos hcd] at h
  cases h

theorem replaceScan_noSeq (a b : Char) (m : Str → Option (Str × Str))
    (hm : ∀ s, m s ≠ none → ∃ tl, s = a :: b :: tl) :
    ∀ (fuel : Nat) (s : Str), noSeq a b s = true → replaceScan m fuel s = s := by
  intro fuel
  induction fuel with
  | zero => intro s _; rfl
  | succ n ih =>
    intro s hs
    cases s with
    | nil => rfl
    | cons c rest =>
      rw [replaceScan]
      cases hmc : m (c :: rest) with
      | some pr =>
        obtain ⟨tl, htl⟩ := hm (c :: rest) (by rw [hmc]; simp)
        injection htl with h1 h2
        subst h1
        rw [h2] at hs
        exact absurd ⟨rfl, rfl⟩ (noSeq_head hs)
      | none =>
        rw [ih rest (noSeq_tail hs)]

theorem noSeq_append_left (a b : Char) (l1 l2 : Str) (h1 : ∀ c ∈ l1, c ≠ a)
    (h2 : noSeq a b l2 = true) : noSeq a b (l1 ++ l2) = true := by
  induction l1 with
  | nil => simpa using h2
  | cons c l1t ih =>
    have hrest : noSeq a b (l1t ++ l2) = true :=
      ih (fun x hx => h1 x (List.mem_cons_of_mem _ hx))
    rw [List.cons_append]
    cases hll : l1t ++ l2 with
    | nil => rfl
    | cons d r =>
      rw [noSeq, if_neg (by
        intro hcd
        exact h1 c (List.mem_cons_self _ _) hcd.1)]
      rw [← hll]
      exact hrest

theorem takeWhile_append_stop (p : Char → Bool) (H : Str) (d : Char) (rest : Str)
    (hH : ∀ c ∈ H, p c = true) (hd : p d = false) :
    (H ++ d :: rest).takeWhile p = H := by
  induction H with
  | nil => simp [List.takeWhile_cons, hd]
  | cons c Ht ih =>
    rw [List.cons_append, List.takeWhile_cons, if_pos (hH c (List.mem_cons_self _ _))]
    rw [ih (fun x hx => hH x (List.mem_cons_of_mem _ hx))]

theorem replaceScan_nil (m : Str → Option (Str × Str)) :
    ∀ fuel, replaceScan m fuel [] = [] := by
  intro fuel
  cases fuel with
  | zero => rfl
  | succ n => rfl

theorem replaceScan_match_whole (m : Str → Option (Str × Str)) (c : Char) (rest cap : Str)
    (h : m (c :: rest) = some (cap, [])) :
    ∀ fuel, replaceScan m (fuel + 1) (c :: rest) = cap := by
  intro fuel
  rw [replaceScan, h]
  simp [replaceScan_nil]

theorem matchDivAt_wrap (H X : Str) (hH : ('"' : Char) ∉ H) (hX : ('<' : Char) ∉ X) :
    matchDivAt (wrapDiv H X) = some (X, []) := by
  have e0 : litDivOpen.isPrefixOf (wrapDiv H X) = true := by
    simp [List.isPrefixOf, wrapDiv, litDivOpen]
  have e1 : findLitWithin litClassCellBg (fun c => c != '>') ((wrapDiv H X).drop 4)
      = some (H ++ ('"' :: '>' :: (X ++ litDivClose))) := by
    simp [findLitWithin, List.isPrefixOf, wrapDiv, litClassCellBg]
  have e2 : (H ++ ('"' :: '>' :: (X ++ litDivClose))).takeWhile (fun c => c != '"') = H :=
    takeWhile_append_stop _ H '"' _
      (fun c hc => by rw [bne_iff_ne]; exact fun hh => hH (hh ▸ hc)) (by decide)
  have e3 : (X ++ litDivClose).takeWhile (fun c => c != '<') = X := by
    rw [show (X ++ litDivClose : Str) = X ++ '<' :: ['/', 'd', 'i', 'v', '>'] from rfl]
    exact takeWhile_append_stop _ X '<' _
      (fun c hc => by rw [bne_iff_ne]; exact fun hh => hX (hh ▸ hc)) (by decide)
  rw [matchDivAt, if_pos e0, e1]
  simp only [e2, List.drop_left]
  simp only [List.takeWhile_cons]
  simp only [show (('>' : Char) != '>') = false from rfl, Bool.false_eq_true, if_false,
    List.length_nil, List.drop_zero]
  simp only [e3, List.drop_left]
  rw [if_pos (by decide : litDivClose.isPrefixOf litDivClose = true)]
  rfl

theorem noSeq_wrapDiv (t2 : Char) (H X : Str)
    (hH : ('<' : Char) ∉ H) (hX : ('<' : Char) ∉ X)
    (hd : t2 ≠ 'd') (hsl : t2 ≠ '/') :
    noSeq '<' t2 (wrapDiv H X) = true := by
  have hclose : noSeq '<' t2 litDivClose = true := by
    rw [show (litDivClose : Str) = ['<', '/', 'd', 'i', 'v', '>'] from rfl]
    rw [noSeq, if_neg (fun hc => hsl hc.2.symm)]
    rw [noSeq, if_neg (fun hc => absurd hc.1 (by decide))]
    rw [noSeq, if_neg (fun hc => absurd hc.1 (by decide))]
    rw [noSeq, if_neg (fun hc => absurd hc.1 (by decide))]
    rw [noSeq, if_neg (fun hc => absurd hc.1 (by decide))]
    rfl
  have hshape : wrapDiv H X
      = '<' :: 'd' :: ((['i', 'v', ' ', 'c', 'l', 'a', 's', 's', '=', '"',
          'c', 'e', 'l', 'l', '-', 'b', 'g', '-'] ++ H ++ ('"' :: '>' :: X)) ++ litDivClose) := by
    simp [wrapDiv, List.append_assoc]
  rw [hshape]
  rw [noSeq, if_neg (fun hc => hd hc.2.symm)]
  rw [show ('d' :: ((['i', 'v', ' ', 'c', 'l', 'a', 's', 's', '=', '"',
      'c', 'e', 'l', 'l', '-', 'b', 'g', '-'] ++ H ++ ('"' :: '>' :: X)) ++ litDivClose) : Str)
      = ('d' :: (['i', 'v', ' ', 'c', 'l', 'a', 's', 's', '=', '"',
          'c', 'e', 'l', 'l', '-', 'b', 'g', '-'] ++ H ++ ('"' :: '>' :: X))) ++ litDivClose
      from rfl]
  apply noSeq_append_left _ _ _ _ ?_ hclose
  intro c hc hceq
  subst hceq
  simp only [List.mem_cons, List.mem_append] at hc
  simp at hc
  rcases hc with h | h
  · exact hH h
  · exact hX h

theorem replaceAll_match_whole (m : Str → Option (Str × Str)) (s cap : Str)
    (h : m s = some (cap, [])) (hne : s ≠ []) : replaceAll m s = cap := by
  cases s with
  | nil => exact absurd rfl hne
  | cons c rest =>
    rw [replaceAll]
    rw [show (c :: rest).length = rest.length + 1 from rfl]
    exact replaceScan_match_whole m c rest cap h rest.length

/-- The cleaning step strips the wrapper produced by `applyCellColor`
back to the bare content. -/
theorem cleanCellContent_wrapDiv (H X : Str) (hHlt : ('<' : Char) ∉ H)
    (hHq : ('"' : Char) ∉ H) (hX : ('<' : Char) ∉ X) :
    cleanCellContent (wrapDiv H X) = X := by
  have h1 : replaceAll matchTdAt (wrapDiv H X) = wrapDiv H X :=
    replaceScan_noSeq '<' 't' matchTdAt
      (fun s hs => prefix_cons2 (matchTdAt_open hs)) _ _
      (noSeq_wrapDiv 't' H X hHlt hX (by decide) (by decide))
  have h2 : replaceAll matchSpanAt (wrapDiv H X) = wrapDiv H X :=
    replaceScan_noSeq '<' 's' matchSpanAt
      (fun s hs => prefix_cons2 (matchSpanAt_open hs)) _ _
      (noSeq_wrapDiv 's' H X hHlt hX (by decide) (by decide))
  have h3 : replaceAll matchMarkAt (wrapDiv H X) = wrapDiv H X :=
    replaceScan_noSeq '<' 'm' matchMarkAt
      (fun s hs => prefix_cons2 (matchMarkAt_open hs)) _ _
      (noSeq_wrapDiv 'm' H X hHlt hX (by decide) (by decide))
  have h4 : replaceAll matchDivAt (wrapDiv H X) = X :=
    replaceAll_match_whole matchDivAt (wrapDiv H X) X (matchDivAt_wrap H X hHq hX)
      (by simp [wrapDiv])
  rw [cleanCellContent, h1, h2, h3, h4]

theorem applyCellColor_eq_wrap (cell color : Str) (hcol : color ≠ []) :
    applyCellColor cell color
      = wrapDiv ((removeFirstHash color).filter isAlnumChar)
          (if trim (cleanCellContent cell) = [] then nbspEnt else cleanCellContent cell) := by
  rw [applyCellColor]
  simp only [if_pos hcol]
  rw [getColorClass, wrapDiv]
  simp [litDivClose]

/-- Claim C7 (amended): `applyCellColor` is idempotent for every
non-empty color and every cell whose content, after the cleaning step,
contains no `<` character (in particular for all markup-free contents):
applying the same color twice yields the same content as applying it
once.  (The claim fails for contents that keep a `<` after cleaning;
see the counterexample.) -/
theorem c7_color_idempotent (cell color : Str) (hcol : color ≠ [])
    (hlt : ('<' : Char) ∉ cleanCellContent cell) :
    applyCellColor (applyCellColor cell color) color = applyCellColor cell color := by
  have hH_alnum : ∀ c ∈ (removeFirstHash color).filter isAlnumChar, isAlnumChar c = true :=
    fun c hc => (List.mem_filter.1 hc).2
  have hHlt : ('<' : Char) ∉ (removeFirstHash color).filter isAlnumChar := by
    intro hc
    exact absurd (hH_alnum _ hc) (by decide)
  have hHq : ('"' : Char) ∉ (removeFirstHash color).filter isAlnumChar := by
    intro hc
    exact absurd (hH_alnum _ hc) (by decide)
  set X := if trim (cleanCellContent cell) = [] then nbspEnt else cleanCellContent cell
    with hXdef
  have hXlt : ('<' : Char) ∉ X := by
    rw [hXdef]
    by_cases he : trim (cleanCellContent cell) = []
    · rw [if_pos he]
      decide
    · rw [if_neg he]
      exact hlt
  have htrimX : trim X ≠ [] := by
    rw [hXdef]
    by_cases he : trim (cleanCellContent cell) = []
    · rw [if_pos he]
      decide
    · rw [if_neg he]
      exact he
  rw [applyCellColor_eq_wrap cell color hcol,
    applyCellColor_eq_wrap (wrapDiv ((removeFirstHash color).filter isAlnumChar) X) color hcol,
    cleanCellContent_wrapDiv _ X hHlt hHq hXlt,
    if_neg htrimX]

/-- The claim as frozen is refuted: a cell whose content is the single
character `<` survives cleaning unchanged, the strip regex cannot match
the wrapper around it on the second call, and the wrappers nest. -/
theorem c7_counterexample :
    applyCellColor (applyCellColor ['<'] ['#', 'f', 'f', '0', '0', '0', '0'])
        ['#', 'f', 'f', '0', '0', '0', '0']
      ≠ applyCellColor ['<'] ['#', 'f', 'f', '0', '0', '0', '0'] := by
  decide

/-- Concrete instance of claim C7 (amended) at the cell content `ab`
and the color `#ff0000`. -/
theorem c7_color_idempotent_witness :
    applyCellColor (applyCellColor ['a', 'b'] ['#', 'f', 'f', '0', '0', '0', '0'])
        ['#', 'f', 'f', '0', '0', '0', '0']
      = applyCellColor ['a', 'b'] ['#', 'f', 'f', '0', '0', '0', '0'] :=
  c7_color_idempotent ['a', 'b'] ['#', 'f', 'f', '0', '0', '0', '0']
    (by decide) (by decide)
